import Mathlib

/-!
Verification of the Network-Set-Calculator core: a `NetworkSet` holding two
per-family collections of CIDR blocks, with `includeNetwork`,
`excludeNetwork` (subnet-complement splitting) and `getNetworks`
(canonical collapsing).  The `NetworkSet` operations are translated from
`src/network-set-calculator.py`; the CIDR primitives it calls
(containment test, subnet-complement split, collapse) live in the external
`ipaddress` library and are modelled from the spec.
-/

set_option maxHeartbeats 1000000

/-- Address family: IPv4 (32-bit) or IPv6 (128-bit). -/
inductive Family where
  | v4
  | v6
deriving DecidableEq

/-- Bit width of the address space of a family. -/
def Family.width : Family → Nat
  | .v4 => 32
  | .v6 => 128

/-- A CIDR block: family, base address, and prefix length. -/
structure Cidr where
  family : Family
  base : Nat
  length : Nat
deriving DecidableEq

/-- Address width of the family of a block. -/
def Cidr.width (p : Cidr) : Nat := p.family.width

/-- Number of addresses in the block. -/
def Cidr.size (p : Cidr) : Nat := 2 ^ (p.width - p.length)

/-- Well-formedness: the length fits the family, the block lies inside the
address space, and the host bits of the base are zero (normalized form). -/
def Cidr.WF (p : Cidr) : Prop :=
  p.length ≤ p.width ∧ p.base + p.size ≤ 2 ^ p.width ∧ p.base % p.size = 0

instance (p : Cidr) : Decidable p.WF := by
  unfold Cidr.WF; exact inferInstance

/-- Semantic coverage: the addresses covered by a block (family implicit). -/
def Cidr.covAddr (p : Cidr) (a : Nat) : Prop :=
  p.base ≤ a ∧ a < p.base + p.size

instance (p : Cidr) (a : Nat) : Decidable (p.covAddr a) := by
  unfold Cidr.covAddr; exact inferInstance

/-- Modelled from the spec: the containment test of the external ipaddress
library (`supernet_of`), which is not part of the repository source.
"A is-supernet-of B": true iff A and B share the same family,
A.length ≤ B.length, and B's base address masked to A.length equals A.base. -/
def IsSupernetOf (a b : Cidr) : Prop :=
  a.family = b.family ∧ a.length ≤ b.length ∧
    b.base / 2 ^ (a.width - a.length) * 2 ^ (a.width - a.length) = a.base

instance (a b : Cidr) : Decidable (IsSupernetOf a b) := by
  unfold IsSupernetOf; exact inferInstance

/-- Lower half-length child of a block (next bit fixed to 0). -/
def childLo (p : Cidr) : Cidr := ⟨p.family, p.base, p.length + 1⟩

/-- Upper half-length child of a block (next bit fixed to 1). -/
def childHi (p : Cidr) : Cidr :=
  ⟨p.family, p.base + 2 ^ (p.width - p.length - 1), p.length + 1⟩

/-- The parent block, one bit shorter, base masked accordingly. -/
def parentOf (p : Cidr) : Cidr :=
  ⟨p.family, p.base / 2 ^ (p.width - p.length + 1) * 2 ^ (p.width - p.length + 1),
    p.length - 1⟩

/-- The whole address space of a family, as a length-0 block. -/
def topCidr (fam : Family) : Cidr := ⟨fam, 0, 0⟩

/-- Modelled from the spec: the bisection loop of the external ipaddress
library's subnet-complement split (`address_exclude`), which is not part of
the repository source.  Starting from the current candidate block, bisect it
into two children, emit the child that does not contain `b`, recurse into
the child that does, and stop when the child is `b` itself (consumed, not
emitted).  `none` models the library's error paths. -/
def excludeLoop (b : Cidr) : Nat → Cidr → Option (List Cidr)
  | 0, _ => none
  | fuel + 1, cur =>
    if childLo cur = b then some [childHi cur]
    else if childHi cur = b then some [childLo cur]
    else if IsSupernetOf (childLo cur) b then
      (excludeLoop b fuel (childLo cur)).map (fun l => childHi cur :: l)
    else if IsSupernetOf (childHi cur) b then
      (excludeLoop b fuel (childHi cur)).map (fun l => childLo cur :: l)
    else none

/-- Modelled from the spec: the external ipaddress library's
`address_exclude` ("A minus B"), which is not part of the repository source.
Errors (`none`) when B is not contained in A; the empty list when A = B;
otherwise the subnet-complement split. -/
def addressExclude (a b : Cidr) : Option (List Cidr) :=
  if IsSupernetOf a b then
    if a = b then some [] else excludeLoop b (b.length - a.length) a
  else none

/-- One per-family collection after `excludeNetwork p`, translated from the
source: keep only members of which `p` is not a supernet, then replace each
member that is a supernet of `p` by its subnet-complement split, passing the
other members through unchanged. -/
def excludeSet (s : Finset Cidr) (p : Cidr) : Finset Cidr :=
  (s.filter (fun n => ¬ IsSupernetOf p n)).biUnion
    (fun n => if IsSupernetOf n p then ((addressExclude n p).getD []).toFinset
              else {n})

/-- Modelled from the spec: canonical aggregation of the external ipaddress
library's `collapse_addresses`, which is not part of the repository source:
produce the minimal set of disjoint prefixes whose union equals the union of
the inputs, merging sibling pairs that exactly form their parent to a fixed
point and absorbing any block into a member that contains it.  The recursion
walks the block tree: a node contained in a member is emitted whole; a node
whose two recursive halves are exactly the two children is merged into the
node; otherwise the halves are concatenated. -/
def collapseAux (s : Finset Cidr) : Nat → Cidr → List Cidr
  | 0, p => if ∃ q ∈ s, IsSupernetOf q p then [p] else []
  | fuel + 1, p =>
    if ∃ q ∈ s, IsSupernetOf q p then [p]
    else if ∃ q ∈ s, IsSupernetOf p q then
      let l := collapseAux s fuel (childLo p)
      let r := collapseAux s fuel (childHi p)
      if l = [childLo p] ∧ r = [childHi p] then [p] else l ++ r
    else []

/-- Collapse one per-family collection, starting from the whole space. -/
def collapseFam (s : Finset Cidr) (fam : Family) : Finset Cidr :=
  (collapseAux s fam.width (topCidr fam)).toFinset

/-- The NetworkSet state: one collection of blocks per address family,
translated from the source. -/
structure NetworkSet where
  v4Networks : Finset Cidr
  v6Networks : Finset Cidr
deriving DecidableEq

/-- The per-family collection of a NetworkSet. -/
def NetworkSet.famSet (s : NetworkSet) : Family → Finset Cidr
  | .v4 => s.v4Networks
  | .v6 => s.v6Networks

/-- A freshly constructed NetworkSet: both collections empty. -/
def emptyNetworkSet : NetworkSet := ⟨∅, ∅⟩

/-- Translated from the source: add the block to the collection of its
family (set semantics, so re-inserting is a no-op). -/
def includeNetwork (s : NetworkSet) (p : Cidr) : NetworkSet :=
  match p.family with
  | .v4 => ⟨insert p s.v4Networks, s.v6Networks⟩
  | .v6 => ⟨s.v4Networks, insert p s.v6Networks⟩

/-- Translated from the source: rebuild the collection of the family of
`p` via `excludeSet`. -/
def excludeNetwork (s : NetworkSet) (p : Cidr) : NetworkSet :=
  match p.family with
  | .v4 => ⟨excludeSet s.v4Networks p, s.v6Networks⟩
  | .v6 => ⟨s.v4Networks, excludeSet s.v6Networks p⟩

/-- Translated from the source: collapse both collections, return them, and
replace the internal state by the collapsed collections. -/
def getNetworks (s : NetworkSet) : (Finset Cidr × Finset Cidr) × NetworkSet :=
  let a := collapseFam s.v4Networks Family.v4
  let b := collapseFam s.v6Networks Family.v6
  ((a, b), ⟨a, b⟩)

/-- Well-formed state: every stored block is well-formed and of the family
of its collection. -/
def NetworkSet.WF (s : NetworkSet) : Prop :=
  ∀ fam : Family, ∀ p ∈ s.famSet fam, p.WF ∧ p.family = fam

/-- Address coverage of a NetworkSet at a family/address pair. -/
def NetworkSet.Covers (s : NetworkSet) (fam : Family) (a : Nat) : Prop :=
  ∃ p ∈ s.famSet fam, p.covAddr a

/-- Checked variant of `excludeSet` propagating the error paths of the
modelled `addressExclude`: `none` as soon as one invocation errors. -/
def excludeSetChecked (s : Finset Cidr) (p : Cidr) : Option (Finset Cidr) :=
  if ∀ n ∈ s.filter (fun n => ¬ IsSupernetOf p n),
      IsSupernetOf n p → (addressExclude n p).isSome = true then
    some (excludeSet s p)
  else none

/-- One mutation step: include when the flag is true, else exclude. -/
def applyOp (s : NetworkSet) (op : Bool × Cidr) : NetworkSet :=
  if op.1 then includeNetwork s op.2 else excludeNetwork s op.2

/-- Run a whole mutation sequence from the fresh empty state. -/
def runSeq (ops : List (Bool × Cidr)) : NetworkSet :=
  ops.foldl applyOp emptyNetworkSet

/-- Two blocks cover no common address. -/
def CidrDisjoint (x y : Cidr) : Prop := ∀ a : Nat, ¬ (x.covAddr a ∧ y.covAddr a)

/-- The whole of block `p` is covered by the union of the members of `s`. -/
def CoversAll (s : Finset Cidr) (p : Cidr) : Prop :=
  ∀ a : Nat, p.covAddr a → ∃ q ∈ s, q.covAddr a

/-- Convenience constructor for a v4 block from dotted-quad notation. -/
def cidr4 (a b c d : Nat) (len : Nat) : Cidr :=
  ⟨Family.v4, ((a * 256 + b) * 256 + c) * 256 + d, len⟩

/-- The end-to-end scenario of the spec: include 0.0.0.0/0, exclude
10.0.0.0/8, then override-include 10.1.2.0/24. -/
def scenarioState : NetworkSet :=
  includeNetwork
    (excludeNetwork
      (includeNetwork emptyNetworkSet (cidr4 0 0 0 0 0))
      (cidr4 10 0 0 0 8))
    (cidr4 10 1 2 0 24)

/-- The v4 component returned by `getNetworks` in the scenario. -/
def scenarioResult : Finset Cidr := (getNetworks scenarioState).1.1

/-- The nine blocks actually produced: 10.1.2.0/24 plus the complement of
10.0.0.0/8 in 0.0.0.0/0, one block per length 1 through 8. -/
def scenarioExpected : Finset Cidr :=
  {cidr4 10 1 2 0 24,
   cidr4 128 0 0 0 1, cidr4 64 0 0 0 2, cidr4 32 0 0 0 3, cidr4 16 0 0 0 4,
   cidr4 0 0 0 0 5, cidr4 12 0 0 0 6, cidr4 8 0 0 0 7, cidr4 11 0 0 0 8}

instance : Fintype Family :=
  ⟨{Family.v4, Family.v6}, by intro x; cases x <;> simp⟩

instance (s : NetworkSet) : Decidable s.WF := by
  unfold NetworkSet.WF; exact inferInstance

/-- The sibling-merge demo collection: 10.0.0.0/25 and 10.0.0.128/25. -/
def sibDemo : NetworkSet := ⟨{cidr4 10 0 0 0 25, cidr4 10 0 0 128 25}, ∅⟩

/-- A one-block state used to exhibit merging across an override round-trip. -/
def halfState : NetworkSet := ⟨{cidr4 0 0 0 0 1}, ∅⟩

/-! ### Arithmetic groundwork -/

theorem Cidr.size_pos (p : Cidr) : 0 < p.size := Nat.pos_pow_of_pos _ (by norm_num)

theorem width_eq_of_family {a b : Cidr} (h : a.family = b.family) : a.width = b.width := by
  unfold Cidr.width; rw [h]

/-- An aligned quantity stays clear of the end of its enclosing block:
if `t` divides `s` and `b`, then `b % s + t ≤ s`. -/
theorem mod_add_le_of_dvd {b s t : Nat} (hs : 0 < s) (hts : t ∣ s) (htb : t ∣ b) :
    b % s + t ≤ s := by
  have ht : 0 < t := by
    rcases Nat.eq_zero_or_pos t with h | h
    · subst h; rcases hts with ⟨c, hc⟩; omega
    · exact h
  have hmod : t ∣ b % s := (Nat.dvd_mod_iff hts).mpr htb
  rcases hmod with ⟨u, hu⟩
  rcases hts with ⟨m, hm⟩
  have hlt : b % s < s := Nat.mod_lt _ hs
  have hum : u < m := by
    have h2 : t * u < t * m := by omega
    exact Nat.lt_of_mul_lt_mul_left h2
  have h3 : t * (u + 1) ≤ t * m := Nat.mul_le_mul_left t hum
  have h4 : t * (u + 1) = t * u + t := by ring
  omega

/-- Division bracketing: if `k * n ≤ m < (k+1) * n` then `m / n = k`. -/
theorem div_eq_of_between {m n k : Nat} (h1 : k * n ≤ m) (h2 : m < (k + 1) * n) :
    m / n = k := Nat.div_eq_of_lt_le h1 (by simpa [Nat.succ_mul] using h2)

theorem mod_eq_zero_of_dvd {a b : Nat} (h : a ∣ b) : b % a = 0 := by
  rcases h with ⟨c, rfl⟩; exact Nat.mul_mod_right a c

/-- Interval characterization of the containment test for well-formed
blocks: A is a supernet of B iff the families agree, A is no longer than B,
and B's address interval lies inside A's. -/
theorem supernet_iff_interval {a b : Cidr} (ha : a.WF) (hb : b.WF) :
    IsSupernetOf a b ↔
      a.family = b.family ∧ a.length ≤ b.length ∧
        a.base ≤ b.base ∧ b.base + b.size ≤ a.base + a.size := by
  have hd : (2 : Nat) ^ (a.width - a.length) = a.size := rfl
  constructor
  · rintro ⟨hfam, hlen, hmask⟩
    refine ⟨hfam, hlen, ?_, ?_⟩
    · rw [← hmask, hd]; exact Nat.div_mul_le_self _ _
    · have hw : a.width = b.width := width_eq_of_family hfam
      have hdvd : b.size ∣ a.size := by
        unfold Cidr.size; rw [hw]; exact pow_dvd_pow 2 (by omega)
      have hba : b.size ∣ b.base := Nat.dvd_of_mod_eq_zero hb.2.2
      have hmod : b.base % a.size + b.size ≤ a.size :=
        mod_add_le_of_dvd a.size_pos hdvd hba
      have hsplit : b.base = b.base / a.size * a.size + b.base % a.size :=
        (Nat.div_add_mod' _ _).symm
      rw [hd] at hmask
      omega
  · rintro ⟨hfam, hlen, hle, hsub⟩
    refine ⟨hfam, hlen, ?_⟩
    have hda : a.size ∣ a.base := Nat.dvd_of_mod_eq_zero ha.2.2
    have hbpos : 0 < b.size := b.size_pos
    have hdiv : b.base / a.size = a.base / a.size := by
      apply div_eq_of_between
      · rw [Nat.div_mul_cancel hda]; omega
      · have hexp : (a.base / a.size + 1) * a.size = a.base + a.size := by
          rw [Nat.add_mul, one_mul, Nat.div_mul_cancel hda]
        omega
    rw [hd, hdiv, Nat.div_mul_cancel hda]

/-- A supernet covers every address its subnet covers. -/
theorem supernet_covAddr {a b : Cidr} (ha : a.WF) (hb : b.WF)
    (h : IsSupernetOf a b) {x : Nat} (hx : b.covAddr x) : a.covAddr x := by
  rcases (supernet_iff_interval ha hb).mp h with ⟨_, _, h1, h2⟩
  rcases hx with ⟨hx1, hx2⟩
  exact ⟨by omega, by omega⟩

/-- Containment is reflexive on well-formed blocks. -/
theorem supernet_refl {a : Cidr} (ha : a.WF) : IsSupernetOf a a :=
  ⟨rfl, le_refl _, Nat.div_mul_cancel (Nat.dvd_of_mod_eq_zero ha.2.2)⟩

/-- Containment is antisymmetric on well-formed blocks. -/
theorem supernet_antisymm {a b : Cidr} (ha : a.WF) (hb : b.WF)
    (h1 : IsSupernetOf a b) (h2 : IsSupernetOf b a) : a = b := by
  rcases (supernet_iff_interval ha hb).mp h1 with ⟨hf, hl1, hc1, _⟩
  rcases (supernet_iff_interval hb ha).mp h2 with ⟨_, hl2, hc2, _⟩
  have hlen : a.length = b.length := le_antisymm hl1 hl2
  have hbase : a.base = b.base := le_antisymm hc1 hc2
  cases a; cases b; simp_all

/-- A strict supernet is strictly shorter. -/
theorem length_lt_of_strict {a b : Cidr} (ha : a.WF) (hb : b.WF)
    (h : IsSupernetOf a b) (hne : a ≠ b) : a.length < b.length := by
  rcases (supernet_iff_interval ha hb).mp h with ⟨hf, hl, hc1, hc2⟩
  rcases Nat.lt_or_ge a.length b.length with h' | h'
  · exact h'
  · exfalso
    have hlen : a.length = b.length := le_antisymm hl h'
    have hw : a.width = b.width := width_eq_of_family hf
    have hsz : a.size = b.size := by unfold Cidr.size; rw [hw, hlen]
    have hbase : a.base = b.base := by omega
    exact hne (by cases a; cases b; simp_all)

/-- Half the interval-containment direction, with the shorter block first:
two well-formed same-family blocks sharing an address are nested. -/
theorem supernet_of_inter {a b : Cidr} (ha : a.WF) (hb : b.WF)
    (hfam : a.family = b.family) (hlen : a.length ≤ b.length)
    {x : Nat} (hxa : a.covAddr x) (hxb : b.covAddr x) : IsSupernetOf a b := by
  refine ⟨hfam, hlen, ?_⟩
  have hw : a.width = b.width := width_eq_of_family hfam
  have hd : (2 : Nat) ^ (a.width - a.length) = a.size := rfl
  have hdvd : b.size ∣ a.size := by
    unfold Cidr.size; rw [hw]; exact pow_dvd_pow 2 (by omega)
  have hba : b.size ∣ b.base := Nat.dvd_of_mod_eq_zero hb.2.2
  have hmod : b.base % a.size + b.size ≤ a.size :=
    mod_add_le_of_dvd a.size_pos hdvd hba
  have hda : a.size ∣ a.base := Nat.dvd_of_mod_eq_zero ha.2.2
  have h1 : x / a.size = a.base / a.size := by
    apply div_eq_of_between
    · rw [Nat.div_mul_cancel hda]; exact hxa.1
    · have hexp : (a.base / a.size + 1) * a.size = a.base + a.size := by
        rw [Nat.add_mul, one_mul, Nat.div_mul_cancel hda]
      rw [hexp]; exact hxa.2
  have h2 : x / a.size = b.base / a.size := by
    apply div_eq_of_between
    · calc b.base / a.size * a.size ≤ b.base := Nat.div_mul_le_self _ _
        _ ≤ x := hxb.1
    · have hsplit : b.base = b.base / a.size * a.size + b.base % a.size :=
        (Nat.div_add_mod' _ _).symm
      have hexp : (b.base / a.size + 1) * a.size = b.base / a.size * a.size + a.size := by
        ring
      have hx2 : x < b.base + b.size := hxb.2
      omega
  rw [hd, ← h2, h1, Nat.div_mul_cancel hda]

/-- Two well-formed same-family blocks are nested or disjoint. -/
theorem nested_or_disjoint {a b : Cidr} (ha : a.WF) (hb : b.WF)
    (hfam : a.family = b.family) {x : Nat} (hxa : a.covAddr x) (hxb : b.covAddr x) :
    IsSupernetOf a b ∨ IsSupernetOf b a := by
  rcases le_total a.length b.length with h | h
  · exact Or.inl (supernet_of_inter ha hb hfam h hxa hxb)
  · exact Or.inr (supernet_of_inter hb ha hfam.symm h hxb hxa)

/-- Transitivity of containment on well-formed blocks. -/
theorem supernet_trans {a b c : Cidr} (ha : a.WF) (hb : b.WF) (hc : c.WF)
    (h1 : IsSupernetOf a b) (h2 : IsSupernetOf b c) : IsSupernetOf a c := by
  rcases (supernet_iff_interval ha hb).mp h1 with ⟨hf1, hl1, hc1, hc2⟩
  rcases (supernet_iff_interval hb hc).mp h2 with ⟨hf2, hl2, hc3, hc4⟩
  exact (supernet_iff_interval ha hc).mpr
    ⟨hf1.trans hf2, le_trans hl1 hl2, by omega, by omega⟩

/-- Alignment upgrade: if the base of the (no-shorter) block `b` falls inside
the well-formed block `a`, then `a` already contains all of `b`. -/
theorem supernet_of_aligned {a b : Cidr} (ha : a.WF) (hb : b.WF)
    (hfam : a.family = b.family) (hlen : a.length ≤ b.length)
    (h1 : a.base ≤ b.base) (h2 : b.base < a.base + a.size) : IsSupernetOf a b := by
  refine ⟨hfam, hlen, ?_⟩
  have hda : a.size ∣ a.base := Nat.dvd_of_mod_eq_zero ha.2.2
  have hd : (2 : Nat) ^ (a.width - a.length) = a.size := rfl
  have hdiv : b.base / a.size = a.base / a.size := by
    apply div_eq_of_between
    · rw [Nat.div_mul_cancel hda]; exact h1
    · have hexp : (a.base / a.size + 1) * a.size = a.base + a.size := by
        rw [Nat.add_mul, one_mul, Nat.div_mul_cancel hda]
      omega
  rw [hd, hdiv, Nat.div_mul_cancel hda]

/-! ### Children and parent of a block -/

theorem size_eq_two_mul_half {p : Cidr} (h : p.length < p.width) :
    p.size = 2 * 2 ^ (p.width - p.length - 1) := by
  unfold Cidr.size
  obtain ⟨k, hk⟩ : ∃ k, p.width - p.length = k + 1 := ⟨p.width - p.length - 1, by omega⟩
  rw [hk]
  simp [pow_succ, Nat.add_sub_cancel, mul_comm]

theorem childLo_base (p : Cidr) : (childLo p).base = p.base := rfl
theorem childLo_length (p : Cidr) : (childLo p).length = p.length + 1 := rfl
theorem childLo_family (p : Cidr) : (childLo p).family = p.family := rfl
theorem childHi_base (p : Cidr) :
    (childHi p).base = p.base + 2 ^ (p.width - p.length - 1) := rfl
theorem childHi_length (p : Cidr) : (childHi p).length = p.length + 1 := rfl
theorem childHi_family (p : Cidr) : (childHi p).family = p.family := rfl

theorem childLo_size (p : Cidr) : (childLo p).size = 2 ^ (p.width - p.length - 1) := rfl
theorem childHi_size (p : Cidr) : (childHi p).size = 2 ^ (p.width - p.length - 1) := rfl

theorem half_dvd_base {p : Cidr} (hp : p.WF) :
    (2:Nat) ^ (p.width - p.length - 1) ∣ p.base := by
  apply dvd_trans _ (Nat.dvd_of_mod_eq_zero hp.2.2)
  show (2:Nat) ^ (p.width - p.length - 1) ∣ p.size
  exact pow_dvd_pow 2 (by omega)

theorem childLo_WF {p : Cidr} (hp : p.WF) (h : p.length < p.width) :
    (childLo p).WF := by
  have h2 : p.size = 2 * 2 ^ (p.width - p.length - 1) := size_eq_two_mul_half h
  refine ⟨?_, ?_, ?_⟩
  · show p.length + 1 ≤ p.width; omega
  · show p.base + (childLo p).size ≤ 2 ^ p.width
    rw [childLo_size]
    have := hp.2.1
    omega
  · show p.base % (2 ^ (p.width - p.length - 1)) = 0
    exact mod_eq_zero_of_dvd (half_dvd_base hp)

theorem childHi_WF {p : Cidr} (hp : p.WF) (h : p.length < p.width) :
    (childHi p).WF := by
  have h2 : p.size = 2 * 2 ^ (p.width - p.length - 1) := size_eq_two_mul_half h
  refine ⟨?_, ?_, ?_⟩
  · show p.length + 1 ≤ p.width; omega
  · show (childHi p).base + (childHi p).size ≤ 2 ^ p.width
    rw [childHi_base, childHi_size]
    have := hp.2.1
    omega
  · show (p.base + 2 ^ (p.width - p.length - 1)) % (2 ^ (p.width - p.length - 1)) = 0
    exact mod_eq_zero_of_dvd (Nat.dvd_add (half_dvd_base hp) dvd_rfl)

/-- A block is the disjoint union of its two children. -/
theorem child_cov {p : Cidr} (h : p.length < p.width) (x : Nat) :
    p.covAddr x ↔ (childLo p).covAddr x ∨ (childHi p).covAddr x := by
  have h2 : p.size = 2 * 2 ^ (p.width - p.length - 1) := size_eq_two_mul_half h
  unfold Cidr.covAddr
  rw [childLo_base, childLo_size, childHi_base, childHi_size]
  omega

theorem child_disjoint (p : Cidr) (x : Nat) :
    ¬ ((childLo p).covAddr x ∧ (childHi p).covAddr x) := by
  unfold Cidr.covAddr
  rw [childLo_base, childLo_size, childHi_base, childHi_size]
  omega

theorem supernet_childLo {p : Cidr} (hp : p.WF) (h : p.length < p.width) :
    IsSupernetOf p (childLo p) := by
  apply supernet_of_aligned hp (childLo_WF hp h) rfl (by rw [childLo_length]; omega)
  · rw [childLo_base]
  · rw [childLo_base]; have := p.size_pos; omega

theorem supernet_childHi {p : Cidr} (hp : p.WF) (h : p.length < p.width) :
    IsSupernetOf p (childHi p) := by
  have h2 : p.size = 2 * 2 ^ (p.width - p.length - 1) := size_eq_two_mul_half h
  apply supernet_of_aligned hp (childHi_WF hp h) rfl (by rw [childHi_length]; omega)
  · rw [childHi_base]; omega
  · rw [childHi_base]
    have hpos : (0:Nat) < 2 ^ (p.width - p.length - 1) := Nat.pos_pow_of_pos _ (by norm_num)
    omega

/-- A strict subnet of a well-formed block lies in exactly one child. -/
theorem supernet_child {p b : Cidr} (hp : p.WF) (hb : b.WF)
    (h : IsSupernetOf p b) (hne : p ≠ b) :
    (IsSupernetOf (childLo p) b ∧ ¬ IsSupernetOf (childHi p) b) ∨
      (IsSupernetOf (childHi p) b ∧ ¬ IsSupernetOf (childLo p) b) := by
  have hlt : p.length < b.length := length_lt_of_strict hp hb h hne
  have hw : p.width = b.width := width_eq_of_family h.1
  have hlw : p.length < p.width := by
    have := hb.1
    omega
  have h2 : p.size = 2 * 2 ^ (p.width - p.length - 1) := size_eq_two_mul_half hlw
  have hepos : 0 < b.size := b.size_pos
  rcases (supernet_iff_interval hp hb).mp h with ⟨hf, _, h1, h3⟩
  rcases Nat.lt_or_ge b.base (p.base + 2 ^ (p.width - p.length - 1)) with hc | hc
  · left
    constructor
    · apply supernet_of_aligned (childLo_WF hp hlw) hb hf
        (by rw [childLo_length]; omega)
      · rw [childLo_base]; exact h1
      · rw [childLo_base, childLo_size]; exact hc
    · intro hcon
      rcases (supernet_iff_interval (childHi_WF hp hlw) hb).mp hcon with ⟨_, _, h4, _⟩
      rw [childHi_base] at h4
      omega
  · right
    constructor
    · apply supernet_of_aligned (childHi_WF hp hlw) hb hf
        (by rw [childHi_length]; omega)
      · rw [childHi_base]; exact hc
      · rw [childHi_base, childHi_size]; omega
    · intro hcon
      rcases (supernet_iff_interval (childLo_WF hp hlw) hb).mp hcon with ⟨_, _, _, h4⟩
      rw [childLo_base, childLo_size] at h4
      omega

theorem parentOf_family (p : Cidr) : (parentOf p).family = p.family := rfl
theorem parentOf_length (p : Cidr) : (parentOf p).length = p.length - 1 := rfl

theorem parentOf_size {p : Cidr} (h1 : 1 ≤ p.length) (h2 : p.length ≤ p.width) :
    (parentOf p).size = 2 ^ (p.width - p.length + 1) := by
  show (2:Nat) ^ (p.width - (p.length - 1)) = 2 ^ (p.width - p.length + 1)
  congr 1
  omega

theorem parentOf_WF {p : Cidr} (hp : p.WF) (h1 : 1 ≤ p.length) : (parentOf p).WF := by
  have h2 : p.length ≤ p.width := hp.1
  refine ⟨?_, ?_, ?_⟩
  · show p.length - 1 ≤ p.width; omega
  · rw [parentOf_size h1 h2]
    show p.base / 2 ^ (p.width - p.length + 1) * 2 ^ (p.width - p.length + 1) +
        2 ^ (p.width - p.length + 1) ≤ 2 ^ p.width
    have hD : (2:Nat) ^ (p.width - p.length + 1) ∣ 2 ^ p.width :=
      pow_dvd_pow 2 (by omega)
    have hblt : p.base < 2 ^ p.width := by
      have := hp.2.1
      have := p.size_pos
      omega
    have hdivlt : p.base / 2 ^ (p.width - p.length + 1) <
        2 ^ p.width / 2 ^ (p.width - p.length + 1) :=
      Nat.div_lt_div_of_lt_of_dvd hD hblt
    have hmul : (p.base / 2 ^ (p.width - p.length + 1) + 1) *
        2 ^ (p.width - p.length + 1) ≤
        2 ^ p.width / 2 ^ (p.width - p.length + 1) * 2 ^ (p.width - p.length + 1) :=
      Nat.mul_le_mul_right _ hdivlt
    rw [Nat.div_mul_cancel hD] at hmul
    have hexp : (p.base / 2 ^ (p.width - p.length + 1) + 1) *
        2 ^ (p.width - p.length + 1) =
        p.base / 2 ^ (p.width - p.length + 1) * 2 ^ (p.width - p.length + 1) +
        2 ^ (p.width - p.length + 1) := by ring
    omega
  · rw [parentOf_size h1 h2]
    show p.base / 2 ^ (p.width - p.length + 1) * 2 ^ (p.width - p.length + 1) %
        2 ^ (p.width - p.length + 1) = 0
    exact Nat.mul_mod_left _ _

theorem parentOf_supernet {p : Cidr} (hp : p.WF) (h1 : 1 ≤ p.length) :
    IsSupernetOf (parentOf p) p := by
  have h2 : p.length ≤ p.width := hp.1
  apply supernet_of_aligned (parentOf_WF hp h1) hp rfl (by rw [parentOf_length]; omega)
  · exact Nat.div_mul_le_self _ _
  · rw [parentOf_size h1 h2]
    show p.base < p.base / 2 ^ (p.width - p.length + 1) * 2 ^ (p.width - p.length + 1) +
        2 ^ (p.width - p.length + 1)
    have hsplit : p.base = p.base / 2 ^ (p.width - p.length + 1) *
        2 ^ (p.width - p.length + 1) + p.base % 2 ^ (p.width - p.length + 1) :=
      (Nat.div_add_mod' _ _).symm
    have hlt : p.base % 2 ^ (p.width - p.length + 1) < 2 ^ (p.width - p.length + 1) :=
      Nat.mod_lt _ (Nat.pos_pow_of_pos _ (by norm_num))
    omega

/-- Any strict well-formed supernet of `x` also contains the parent of `x`. -/
theorem supernet_parentOf {a x : Cidr} (ha : a.WF) (hx : x.WF)
    (h : IsSupernetOf a x) (hne : a ≠ x) : IsSupernetOf a (parentOf x) := by
  have hlt : a.length < x.length := length_lt_of_strict ha hx h hne
  have h1 : 1 ≤ x.length := by omega
  have hw : a.width = x.width := width_eq_of_family h.1
  rcases (supernet_iff_interval ha hx).mp h with ⟨hf, _, hb1, hb2⟩
  have hfam : a.family = (parentOf x).family := hf
  apply supernet_of_aligned ha (parentOf_WF hx h1) hfam
    (by rw [parentOf_length]; omega)
  · show a.base ≤ x.base / 2 ^ (x.width - x.length + 1) * 2 ^ (x.width - x.length + 1)
    have hDa : (2:Nat) ^ (x.width - x.length + 1) ∣ a.size := by
      unfold Cidr.size
      rw [hw]
      have hxl := hx.1
      have hal := ha.1
      rw [hw] at hal
      exact pow_dvd_pow 2 (by omega)
    have hab : (2:Nat) ^ (x.width - x.length + 1) ∣ a.base :=
      dvd_trans hDa (Nat.dvd_of_mod_eq_zero ha.2.2)
    have hdle : a.base / 2 ^ (x.width - x.length + 1) ≤
        x.base / 2 ^ (x.width - x.length + 1) :=
      Nat.div_le_div_right hb1
    have hmul : a.base / 2 ^ (x.width - x.length + 1) * 2 ^ (x.width - x.length + 1) ≤
        x.base / 2 ^ (x.width - x.length + 1) * 2 ^ (x.width - x.length + 1) :=
      Nat.mul_le_mul_right _ hdle
    rwa [Nat.div_mul_cancel hab] at hmul
  · show x.base / 2 ^ (x.width - x.length + 1) * 2 ^ (x.width - x.length + 1) <
        a.base + a.size
    have hle : x.base / 2 ^ (x.width - x.length + 1) * 2 ^ (x.width - x.length + 1) ≤
        x.base := Nat.div_mul_le_self _ _
    have hxs := x.size_pos
    exact lt_of_le_of_lt hle (by omega)

theorem parentOf_childLo {p : Cidr} (hp : p.WF) (h : p.length < p.width) :
    parentOf (childLo p) = p := by
  have hD : (2:Nat) ^ ((childLo p).width - (childLo p).length + 1) = p.size := by
    unfold Cidr.size
    congr 1
    show p.width - (p.length + 1) + 1 = p.width - p.length
    omega
  unfold parentOf
  rw [hD]
  have hb : (childLo p).base / p.size * p.size = p.base := by
    show p.base / p.size * p.size = p.base
    exact Nat.div_mul_cancel (Nat.dvd_of_mod_eq_zero hp.2.2)
  rw [hb]
  rfl

theorem parentOf_childHi {p : Cidr} (hp : p.WF) (h : p.length < p.width) :
    parentOf (childHi p) = p := by
  have hD : (2:Nat) ^ ((childHi p).width - (childHi p).length + 1) = p.size := by
    unfold Cidr.size
    congr 1
    show p.width - (p.length + 1) + 1 = p.width - p.length
    omega
  unfold parentOf
  rw [hD]
  have h2 : p.size = 2 * 2 ^ (p.width - p.length - 1) := size_eq_two_mul_half h
  have hb : (childHi p).base / p.size * p.size = p.base := by
    show (p.base + 2 ^ (p.width - p.length - 1)) / p.size * p.size = p.base
    have hda : p.size ∣ p.base := Nat.dvd_of_mod_eq_zero hp.2.2
    have hcpos : (0:Nat) < 2 ^ (p.width - p.length - 1) :=
      Nat.pos_pow_of_pos _ (by norm_num)
    have hdiv : (p.base + 2 ^ (p.width - p.length - 1)) / p.size = p.base / p.size := by
      apply div_eq_of_between
      · rw [Nat.div_mul_cancel hda]; omega
      · have hexp : (p.base / p.size + 1) * p.size = p.base + p.size := by
          rw [Nat.add_mul, one_mul, Nat.div_mul_cancel hda]
        omega
    rw [hdiv, Nat.div_mul_cancel hda]
  rw [hb]
  rfl

/-! ### The whole-space block -/

theorem topCidr_WF (fam : Family) : (topCidr fam).WF := by
  refine ⟨Nat.zero_le _, ?_, ?_⟩
  · show 0 + 2 ^ (fam.width - 0) ≤ 2 ^ fam.width
    simp
  · show 0 % (topCidr fam).size = 0
    exact Nat.zero_mod _

theorem supernet_top {fam : Family} {m : Cidr} (hm : m.WF) (hfam : m.family = fam) :
    IsSupernetOf (topCidr fam) m := by
  refine ⟨hfam.symm, Nat.zero_le _, ?_⟩
  show m.base / 2 ^ (fam.width - 0) * 2 ^ (fam.width - 0) = 0
  have hw : m.width = fam.width := by unfold Cidr.width; rw [hfam]
  have hblt : m.base < 2 ^ fam.width := by
    have h1 := hm.2.1
    have h2 := m.size_pos
    rw [hw] at h1
    omega
  rw [Nat.sub_zero, Nat.div_eq_of_lt hblt]
  simp

theorem eq_top_of_length_zero {m : Cidr} (hm : m.WF) (h : m.length = 0) :
    m = topCidr m.family := by
  have hsz : m.size = 2 ^ m.width := by
    unfold Cidr.size; rw [h, Nat.sub_zero]
  have hb : m.base = 0 := by
    have := hm.2.1
    omega
  cases m
  simp_all [topCidr]

/-! ### Specification of the subnet-complement split -/

theorem childLo_ne_childHi (p : Cidr) : childLo p ≠ childHi p := by
  intro h
  have hb : p.base = p.base + 2 ^ (p.width - p.length - 1) := congrArg Cidr.base h
  have hpos : (0:Nat) < 2 ^ (p.width - p.length - 1) := Nat.pos_pow_of_pos _ (by norm_num)
  omega

theorem excludeLoop_spec {b : Cidr} (hb : b.WF) :
    ∀ fuel (cur : Cidr), cur.WF → IsSupernetOf cur b → cur ≠ b →
      fuel = b.length - cur.length →
      ∃ l, excludeLoop b fuel cur = some l ∧
        l.length = b.length - cur.length ∧
        (∀ i, ∀ h : i < l.length, (l.get ⟨i, h⟩).length = cur.length + 1 + i) ∧
        (∀ x ∈ l, x.WF ∧ x.family = cur.family ∧ IsSupernetOf cur x) ∧
        (∀ x ∈ l, ∀ a : Nat, x.covAddr a → ¬ b.covAddr a) ∧
        List.Pairwise CidrDisjoint l ∧
        (∀ a : Nat, cur.covAddr a ↔ (b.covAddr a ∨ ∃ x ∈ l, x.covAddr a)) ∧
        b ∉ l := by
  intro fuel
  induction fuel with
  | zero =>
    intro cur hcur hsup hne hf
    exfalso
    have := length_lt_of_strict hcur hb hsup hne
    omega
  | succ fuel ih =>
    intro cur hcur hsup hne hf
    have hlt : cur.length < b.length := length_lt_of_strict hcur hb hsup hne
    have hw : cur.width = b.width := width_eq_of_family hsup.1
    have hlw : cur.length < cur.width := by
      have h1 := hb.1
      omega
    have hloWF := childLo_WF hcur hlw
    have hhiWF := childHi_WF hcur hlw
    by_cases h1 : childLo cur = b
    · -- the lower child is exactly b: emit the upper child and stop
      have hlen : cur.length + 1 = b.length := by
        have := congrArg Cidr.length h1
        simpa [childLo_length] using this
      refine ⟨[childHi cur], ?_, ?_, ?_, ?_, ?_, ?_, ?_, ?_⟩
      · simp [excludeLoop, h1]
      · simp; omega
      · intro i hi
        simp at hi
        subst hi
        simp [List.get, childHi_length]
      · intro x hx
        simp at hx
        subst hx
        exact ⟨hhiWF, rfl, supernet_childHi hcur hlw⟩
      · intro x hx a hxa hba
        simp at hx
        subst hx
        rw [← h1] at hba
        exact child_disjoint cur a ⟨hba, hxa⟩
      · simp [List.pairwise_singleton]
      · intro a
        rw [child_cov hlw a, h1]
        simp
      · simp
        rw [← h1]
        exact fun hcon => childLo_ne_childHi cur hcon
    · by_cases h2 : childHi cur = b
      · -- the upper child is exactly b: emit the lower child and stop
        have hlen : cur.length + 1 = b.length := by
          have := congrArg Cidr.length h2
          simpa [childHi_length] using this
        refine ⟨[childLo cur], ?_, ?_, ?_, ?_, ?_, ?_, ?_, ?_⟩
        · simp [excludeLoop, h1, h2]
        · simp; omega
        · intro i hi
          simp at hi
          subst hi
          simp [List.get, childLo_length]
        · intro x hx
          simp at hx
          subst hx
          exact ⟨hloWF, rfl, supernet_childLo hcur hlw⟩
        · intro x hx a hxa hba
          simp at hx
          subst hx
          rw [← h2] at hba
          exact child_disjoint cur a ⟨hxa, hba⟩
        · simp [List.pairwise_singleton]
        · intro a
          rw [child_cov hlw a, h2]
          simp [List.mem_singleton]
          tauto
        · simp
          rw [← h2]
          exact fun hcon => childLo_ne_childHi cur hcon.symm
      · by_cases h3 : IsSupernetOf (childLo cur) b
        · -- b lies in the lower child: emit the upper child and recurse
          obtain ⟨l', heq', hlen', hget', hmem', hdisb', hpw', hcov', hnb'⟩ :=
            ih (childLo cur) hloWF h3 (fun hcon => h1 hcon) (by
              rw [childLo_length]; omega)
          refine ⟨childHi cur :: l', ?_, ?_, ?_, ?_, ?_, ?_, ?_, ?_⟩
          · simp [excludeLoop, h1, h2, h3, heq']
          · simp
            rw [childLo_length] at hlen'
            omega
          · intro i hi
            match i with
            | 0 => simp [List.get, childHi_length]
            | Nat.succ j =>
              have hj : j < l'.length := by simp at hi; omega
              have := hget' j hj
              rw [childLo_length] at this
              show (l'.get ⟨j, hj⟩).length = cur.length + 1 + (j + 1)
              omega
          · intro x hx
            rcases List.mem_cons.mp hx with hx | hx
            · subst hx
              exact ⟨hhiWF, rfl, supernet_childHi hcur hlw⟩
            · obtain ⟨hxWF, hxfam, hxsub⟩ := hmem' x hx
              exact ⟨hxWF, hxfam, supernet_trans hcur hloWF hxWF
                (supernet_childLo hcur hlw) hxsub⟩
          · intro x hx a hxa hba
            rcases List.mem_cons.mp hx with hx | hx
            · subst hx
              have hlo : (childLo cur).covAddr a := supernet_covAddr hloWF hb h3 hba
              exact child_disjoint cur a ⟨hlo, hxa⟩
            · exact hdisb' x hx a hxa hba
          · refine List.Pairwise.cons ?_ hpw'
            intro x hx a ⟨hha, hxa⟩
            obtain ⟨hxWF, _, hxsub⟩ := hmem' x hx
            have hlo : (childLo cur).covAddr a := supernet_covAddr hloWF hxWF hxsub hxa
            exact child_disjoint cur a ⟨hlo, hha⟩
          · intro a
            rw [child_cov hlw a, hcov' a]
            simp only [List.mem_cons]
            constructor
            · rintro ((hba | ⟨x, hx, hxa⟩) | hhi)
              · exact Or.inl hba
              · exact Or.inr ⟨x, Or.inr hx, hxa⟩
              · exact Or.inr ⟨childHi cur, Or.inl rfl, hhi⟩
            · rintro (hba | ⟨x, hx | hx, hxa⟩)
              · exact Or.inl (Or.inl hba)
              · subst hx; exact Or.inr hxa
              · exact Or.inl (Or.inr ⟨x, hx, hxa⟩)
          · intro hcon
            rcases List.mem_cons.mp hcon with hcon | hcon
            · exact h2 hcon.symm
            · exact hnb' hcon
        · by_cases h4 : IsSupernetOf (childHi cur) b
          · -- b lies in the upper child: emit the lower child and recurse
            obtain ⟨l', heq', hlen', hget', hmem', hdisb', hpw', hcov', hnb'⟩ :=
              ih (childHi cur) hhiWF h4 (fun hcon => h2 hcon) (by
                rw [childHi_length]; omega)
            refine ⟨childLo cur :: l', ?_, ?_, ?_, ?_, ?_, ?_, ?_, ?_⟩
            · simp [excludeLoop, h1, h2, h3, h4, heq']
            · simp
              rw [childHi_length] at hlen'
              omega
            · intro i hi
              match i with
              | 0 => simp [List.get, childLo_length]
              | Nat.succ j =>
                have hj : j < l'.length := by simp at hi; omega
                have := hget' j hj
                rw [childHi_length] at this
                show (l'.get ⟨j, hj⟩).length = cur.length + 1 + (j + 1)
                omega
            · intro x hx
              rcases List.mem_cons.mp hx with hx | hx
              · subst hx
                exact ⟨hloWF, rfl, supernet_childLo hcur hlw⟩
              · obtain ⟨hxWF, hxfam, hxsub⟩ := hmem' x hx
                exact ⟨hxWF, hxfam, supernet_trans hcur hhiWF hxWF
                  (supernet_childHi hcur hlw) hxsub⟩
            · intro x hx a hxa hba
              rcases List.mem_cons.mp hx with hx | hx
              · subst hx
                have hhi : (childHi cur).covAddr a := supernet_covAddr hhiWF hb h4 hba
                exact child_disjoint cur a ⟨hxa, hhi⟩
              · exact hdisb' x hx a hxa hba
            · refine List.Pairwise.cons ?_ hpw'
              intro x hx a ⟨hla, hxa⟩
              obtain ⟨hxWF, _, hxsub⟩ := hmem' x hx
              have hhi : (childHi cur).covAddr a := supernet_covAddr hhiWF hxWF hxsub hxa
              exact child_disjoint cur a ⟨hla, hhi⟩
            · intro a
              rw [child_cov hlw a, hcov' a]
              simp only [List.mem_cons]
              constructor
              · rintro (hlo | (hba | ⟨x, hx, hxa⟩))
                · exact Or.inr ⟨childLo cur, Or.inl rfl, hlo⟩
                · exact Or.inl hba
                · exact Or.inr ⟨x, Or.inr hx, hxa⟩
              · rintro (hba | ⟨x, hx | hx, hxa⟩)
                · exact Or.inr (Or.inl hba)
                · subst hx; exact Or.inl hxa
                · exact Or.inr (Or.inr ⟨x, hx, hxa⟩)
            · intro hcon
              rcases List.mem_cons.mp hcon with hcon | hcon
              · exact h1 hcon.symm
              · exact hnb' hcon
          · exfalso
            rcases supernet_child hcur hb hsup hne with ⟨hc, _⟩ | ⟨hc, _⟩
            · exact h3 hc
            · exact h4 hc

/-- The split of a strict well-formed supernet `a` by its subnet `b` always
succeeds and satisfies the full subnet-complement specification. -/
theorem addressExclude_spec {a b : Cidr} (ha : a.WF) (hb : b.WF)
    (h : IsSupernetOf a b) (hne : a ≠ b) :
    ∃ l, addressExclude a b = some l ∧
      l.length = b.length - a.length ∧
      (∀ i, ∀ hi : i < l.length, (l.get ⟨i, hi⟩).length = a.length + 1 + i) ∧
      (∀ x ∈ l, x.WF ∧ x.family = a.family ∧ IsSupernetOf a x) ∧
      (∀ x ∈ l, ∀ c : Nat, x.covAddr c → ¬ b.covAddr c) ∧
      List.Pairwise CidrDisjoint l ∧
      (∀ c : Nat, a.covAddr c ↔ (b.covAddr c ∨ ∃ x ∈ l, x.covAddr c)) ∧
      b ∉ l := by
  obtain ⟨l, hl, rest⟩ := excludeLoop_spec hb (b.length - a.length) a ha h hne rfl
  refine ⟨l, ?_, rest⟩
  unfold addressExclude
  rw [if_pos h, if_neg hne, hl]

theorem addressExclude_self {a : Cidr} (ha : a.WF) : addressExclude a a = some [] := by
  unfold addressExclude
  rw [if_pos (supernet_refl ha), if_pos rfl]

/-- Membership in the rebuilt collection, following the three-way split that
the source performs (filter, then split-or-keep). -/
theorem excludeSet_mem {s : Finset Cidr} {p q : Cidr} :
    q ∈ excludeSet s p ↔ ∃ n ∈ s, ¬ IsSupernetOf p n ∧
      ((IsSupernetOf n p ∧ q ∈ (addressExclude n p).getD []) ∨
       (¬ IsSupernetOf n p ∧ q = n)) := by
  unfold excludeSet
  simp only [Finset.mem_biUnion, Finset.mem_filter]
  constructor
  · rintro ⟨n, ⟨hn, hnp⟩, hq⟩
    refine ⟨n, hn, hnp, ?_⟩
    by_cases hc : IsSupernetOf n p
    · rw [if_pos hc] at hq
      exact Or.inl ⟨hc, List.mem_toFinset.mp hq⟩
    · rw [if_neg hc] at hq
      exact Or.inr ⟨hc, Finset.mem_singleton.mp hq⟩
  · rintro ⟨n, hn, hnp, ⟨hc, hq⟩ | ⟨hc, hq⟩⟩
    · exact ⟨n, ⟨hn, hnp⟩, by rw [if_pos hc]; exact List.mem_toFinset.mpr hq⟩
    · exact ⟨n, ⟨hn, hnp⟩, by rw [if_neg hc]; exact Finset.mem_singleton.mpr hq⟩

/-- Members of the rebuilt collection are well-formed, of the family of the
excluded block. -/
theorem excludeSet_WF {s : Finset Cidr} {p : Cidr} (hp : p.WF)
    (hs : ∀ n ∈ s, n.WF ∧ n.family = p.family) :
    ∀ q ∈ excludeSet s p, q.WF ∧ q.family = p.family := by
  intro q hq
  rcases excludeSet_mem.mp hq with ⟨n, hn, hnp, ⟨hc, hql⟩ | ⟨hc, rfl⟩⟩
  · obtain ⟨hnWF, hnfam⟩ := hs n hn
    have hne : n ≠ p := by
      rintro rfl
      exact hnp (supernet_refl hnWF)
    obtain ⟨l, hl, _, _, hmem, _, _, _, _⟩ := addressExclude_spec hnWF hp hc hne
    rw [hl] at hql
    obtain ⟨hqWF, hqfam, _⟩ := hmem q hql
    exact ⟨hqWF, hqfam.trans hnfam⟩
  · exact hs q hn

/-- Coverage of the rebuilt collection: the old coverage minus the excluded
block's addresses. -/
theorem excludeSet_cov {s : Finset Cidr} {p : Cidr} (hp : p.WF)
    (hs : ∀ n ∈ s, n.WF ∧ n.family = p.family) (c : Nat) :
    (∃ q ∈ excludeSet s p, q.covAddr c) ↔
      (∃ n ∈ s, n.covAddr c) ∧ ¬ p.covAddr c := by
  constructor
  · rintro ⟨q, hq, hqc⟩
    rcases excludeSet_mem.mp hq with ⟨n, hn, hnp, ⟨hc, hql⟩ | ⟨hc, rfl⟩⟩
    · obtain ⟨hnWF, hnfam⟩ := hs n hn
      have hne : n ≠ p := by
        rintro rfl
        exact hnp (supernet_refl hnWF)
      obtain ⟨l, hl, _, _, _, hdisb, _, hcov, _⟩ := addressExclude_spec hnWF hp hc hne
      rw [hl] at hql
      refine ⟨⟨n, hn, ?_⟩, hdisb q hql c hqc⟩
      exact (hcov c).mpr (Or.inr ⟨q, hql, hqc⟩)
    · obtain ⟨hnWF, hnfam⟩ := hs q hn
      refine ⟨⟨q, hn, hqc⟩, fun hpc => ?_⟩
      rcases nested_or_disjoint hp hnWF hnfam.symm hpc hqc with hd | hd
      · exact hnp hd
      · exact hc hd
  · rintro ⟨⟨n, hn, hnc⟩, hpc⟩
    obtain ⟨hnWF, hnfam⟩ := hs n hn
    have hnp : ¬ IsSupernetOf p n := fun hd => hpc (supernet_covAddr hp hnWF hd hnc)
    by_cases hc : IsSupernetOf n p
    · have hne : n ≠ p := by
        rintro rfl
        exact hnp (supernet_refl hnWF)
      obtain ⟨l, hl, _, _, _, _, _, hcov, _⟩ := addressExclude_spec hnWF hp hc hne
      rcases (hcov c).mp hnc with hbc | ⟨x, hx, hxc⟩
      · exact absurd hbc hpc
      · refine ⟨x, excludeSet_mem.mpr ⟨n, hn, hnp, Or.inl ⟨hc, ?_⟩⟩, hxc⟩
        rw [hl]
        exact hx
    · exact ⟨n, excludeSet_mem.mpr ⟨n, hn, hnp, Or.inr ⟨hc, rfl⟩⟩, hnc⟩

/-- The checked exclusion never errors on well-formed inputs: the split is
only ever invoked on strict supernets of the excluded block. -/
theorem excludeSetChecked_ok {s : Finset Cidr} {p : Cidr} (hp : p.WF)
    (hs : ∀ n ∈ s, n.WF ∧ n.family = p.family) :
    excludeSetChecked s p = some (excludeSet s p) := by
  unfold excludeSetChecked
  rw [if_pos]
  intro n hn hc
  rw [Finset.mem_filter] at hn
  obtain ⟨hnWF, _⟩ := hs n hn.1
  have hne : n ≠ p := by
    rintro rfl
    exact hn.2 (supernet_refl hnWF)
  obtain ⟨l, hl, _⟩ := addressExclude_spec hnWF hp hc hne
  rw [hl]
  rfl

/-- A block disjoint from every member leaves the collection unchanged. -/
theorem excludeSet_disjoint_noop {s : Finset Cidr} {p : Cidr}
    (h : ∀ n ∈ s, ¬ IsSupernetOf p n ∧ ¬ IsSupernetOf n p) :
    excludeSet s p = s := by
  ext q
  rw [excludeSet_mem]
  constructor
  · rintro ⟨n, hn, hnp, ⟨hc, _⟩ | ⟨_, rfl⟩⟩
    · exact absurd hc (h n hn).2
    · exact hn
  · intro hq
    exact ⟨q, hq, (h q hq).1, Or.inr ⟨(h q hq).2, rfl⟩⟩

/-! ### NetworkSet-level state lemmas -/

theorem famSet_includeNetwork (s : NetworkSet) (p : Cidr) (fam : Family) :
    (includeNetwork s p).famSet fam =
      if p.family = fam then insert p (s.famSet fam) else s.famSet fam := by
  cases hp : p.family <;> cases fam <;>
    simp [includeNetwork, NetworkSet.famSet, hp]

theorem famSet_excludeNetwork (s : NetworkSet) (p : Cidr) (fam : Family) :
    (excludeNetwork s p).famSet fam =
      if p.family = fam then excludeSet (s.famSet fam) p else s.famSet fam := by
  cases hp : p.family <;> cases fam <;>
    simp [excludeNetwork, NetworkSet.famSet, hp]

theorem includeNetwork_WF {s : NetworkSet} {p : Cidr} (hp : p.WF) (hs : s.WF) :
    (includeNetwork s p).WF := by
  intro fam q hq
  rw [famSet_includeNetwork] at hq
  by_cases h : p.family = fam
  · rw [if_pos h] at hq
    rcases Finset.mem_insert.mp hq with rfl | hq
    · exact ⟨hp, h⟩
    · exact hs fam q hq
  · rw [if_neg h] at hq
    exact hs fam q hq

theorem excludeNetwork_WF {s : NetworkSet} {p : Cidr} (hp : p.WF) (hs : s.WF) :
    (excludeNetwork s p).WF := by
  intro fam q hq
  rw [famSet_excludeNetwork] at hq
  by_cases h : p.family = fam
  · rw [if_pos h] at hq
    subst h
    have := excludeSet_WF hp (fun n hn => hs p.family n hn) q hq
    exact this
  · rw [if_neg h] at hq
    exact hs fam q hq

theorem covers_includeNetwork (s : NetworkSet) (p : Cidr) (fam : Family) (c : Nat) :
    (includeNetwork s p).Covers fam c ↔
      s.Covers fam c ∨ (p.family = fam ∧ p.covAddr c) := by
  unfold NetworkSet.Covers
  rw [famSet_includeNetwork]
  by_cases h : p.family = fam
  · rw [if_pos h]
    constructor
    · rintro ⟨q, hq, hqc⟩
      rcases Finset.mem_insert.mp hq with rfl | hq
      · exact Or.inr ⟨h, hqc⟩
      · exact Or.inl ⟨q, hq, hqc⟩
    · rintro (⟨q, hq, hqc⟩ | ⟨_, hpc⟩)
      · exact ⟨q, Finset.mem_insert_of_mem hq, hqc⟩
      · exact ⟨p, Finset.mem_insert_self _ _, hpc⟩
  · rw [if_neg h]
    constructor
    · exact fun hq => Or.inl hq
    · rintro (hq | ⟨hf, _⟩)
      · exact hq
      · exact absurd hf h

theorem covers_excludeNetwork {s : NetworkSet} {p : Cidr} (hp : p.WF) (hs : s.WF)
    (fam : Family) (c : Nat) :
    (excludeNetwork s p).Covers fam c ↔
      s.Covers fam c ∧ ¬ (p.family = fam ∧ p.covAddr c) := by
  unfold NetworkSet.Covers
  rw [famSet_excludeNetwork]
  by_cases h : p.family = fam
  · rw [if_pos h]
    subst h
    rw [excludeSet_cov hp (fun n hn => hs p.family n hn) c]
    tauto
  · rw [if_neg h]
    tauto

theorem foldl_exclude_WF {ps : List Cidr} (hps : ∀ p ∈ ps, p.WF) :
    ∀ {s : NetworkSet}, s.WF → (ps.foldl excludeNetwork s).WF := by
  induction ps with
  | nil => intro s hs; exact hs
  | cons p ps ih =>
    intro s hs
    rw [List.foldl_cons]
    exact ih (fun q hq => hps q (List.mem_cons_of_mem _ hq))
      (excludeNetwork_WF (hps p (List.mem_cons_self _ _)) hs)

/-- Coverage after a whole sequence of exclusions: the initial coverage
minus the union of all excluded ranges. -/
theorem foldl_exclude_covers {ps : List Cidr} (hps : ∀ p ∈ ps, p.WF) :
    ∀ {s : NetworkSet}, s.WF → ∀ (fam : Family) (c : Nat),
      ((ps.foldl excludeNetwork s).Covers fam c ↔
        s.Covers fam c ∧ ¬ ∃ p ∈ ps, p.family = fam ∧ p.covAddr c) := by
  induction ps with
  | nil => intro s hs fam c; simp
  | cons p ps ih =>
    intro s hs fam c
    rw [List.foldl_cons,
      ih (fun q hq => hps q (List.mem_cons_of_mem _ hq))
        (excludeNetwork_WF (hps p (List.mem_cons_self _ _)) hs) fam c,
      covers_excludeNetwork (hps p (List.mem_cons_self _ _)) hs fam c]
    simp only [List.mem_cons]
    constructor
    · rintro ⟨⟨hcov, hnp⟩, hnex⟩
      refine ⟨hcov, ?_⟩
      rintro ⟨q, hq | hq, hqf, hqc⟩
      · subst hq; exact hnp ⟨hqf, hqc⟩
      · exact hnex ⟨q, hq, hqf, hqc⟩
    · rintro ⟨hcov, hnex⟩
      refine ⟨⟨hcov, fun hpc => hnex ⟨p, Or.inl rfl, hpc⟩⟩, fun hex => ?_⟩
      obtain ⟨q, hq, hqf, hqc⟩ := hex
      exact hnex ⟨q, Or.inr hq, hqf, hqc⟩

/-! ### Specification of the collapse -/

theorem coversAll_mono {s : Finset Cidr} {p q : Cidr} (hp : p.WF) (hq : q.WF)
    (hsub : IsSupernetOf p q) (h : CoversAll s p) : CoversAll s q :=
  fun a ha => h a (supernet_covAddr hp hq hsub ha)

theorem covAddr_base {p : Cidr} : p.covAddr p.base := by
  have := p.size_pos
  exact ⟨le_refl _, by omega⟩

/-- A covered block without a containing member must have a member inside it. -/
theorem coversAll_member {s : Finset Cidr} {p : Cidr} (hp : p.WF)
    (hs : ∀ q ∈ s, q.WF ∧ q.family = p.family)
    (hcov : CoversAll s p) (hnosup : ¬ ∃ q ∈ s, IsSupernetOf q p) :
    ∃ q ∈ s, IsSupernetOf p q := by
  obtain ⟨q, hq, hqc⟩ := hcov p.base covAddr_base
  obtain ⟨hqWF, hqfam⟩ := hs q hq
  rcases nested_or_disjoint hp hqWF hqfam.symm covAddr_base hqc with hd | hd
  · exact ⟨q, hq, hd⟩
  · exact absurd ⟨q, hq, hd⟩ hnosup

theorem eq_of_supernet_maxlen {p x : Cidr} (hp : p.WF) (hx : x.WF)
    (h : IsSupernetOf p x) (hlen : p.width ≤ p.length) : p = x := by
  by_contra hne
  have hlt := length_lt_of_strict hp hx h hne
  have hw : p.width = x.width := width_eq_of_family h.1
  have := hx.1
  omega

/-- A maximal covered block that contains block `x` satisfying the
maximality disjunction must be `x` itself, whenever the containing block is
itself fully covered. -/
theorem collapse_force_eq {s : Finset Cidr} {p x : Cidr} (hp : p.WF) (hx : x.WF)
    (hsx : IsSupernetOf p x) (hdisj : x = p ∨ ¬ CoversAll s (parentOf x))
    (hCovP : CoversAll s p) : x = p := by
  by_cases hxp : x = p
  · exact hxp
  · exfalso
    have hne : p ≠ x := fun he => hxp he.symm
    have hlt := length_lt_of_strict hp hx hsx hne
    have hparWF := parentOf_WF hx (by omega)
    have hpar := supernet_parentOf hp hx hsx hne
    rcases hdisj with h | h
    · exact hxp h
    · exact h (coversAll_mono hp hparWF hpar hCovP)

/-- Full specification of the collapse walk on one node of the block tree:
(i) emitted blocks are well-formed sub-blocks of the node;
(ii) the node is emitted whole iff it is entirely covered;
(iii) the emitted blocks cover exactly the covered addresses inside the node;
(iv) a block is emitted iff it is a maximal covered sub-block of the node. -/
theorem collapseAux_spec {s : Finset Cidr} {fam : Family}
    (hs : ∀ q ∈ s, q.WF ∧ q.family = fam) :
    ∀ fuel (p : Cidr), p.WF → p.family = fam → fuel = fam.width - p.length →
      (∀ x ∈ collapseAux s fuel p, x.WF ∧ x.family = fam ∧ IsSupernetOf p x) ∧
      (collapseAux s fuel p = [p] ↔ CoversAll s p) ∧
      (∀ a : Nat, (∃ x ∈ collapseAux s fuel p, x.covAddr a) ↔
        (p.covAddr a ∧ ∃ q ∈ s, q.covAddr a)) ∧
      (∀ x, x ∈ collapseAux s fuel p ↔
        (IsSupernetOf p x ∧ x.WF ∧ x.family = fam ∧ CoversAll s x ∧
          (x = p ∨ ¬ CoversAll s (parentOf x)))) := by
  intro fuel
  induction fuel with
  | zero =>
    intro p hp hpf hf
    have hw : p.width = fam.width := by unfold Cidr.width; rw [hpf]
    have hmax : p.width ≤ p.length := by
      have := hp.1
      omega
    have hsfam : ∀ q ∈ s, q.WF ∧ q.family = p.family := by
      intro q hq
      exact ⟨(hs q hq).1, (hs q hq).2.trans hpf.symm⟩
    by_cases h1 : ∃ q ∈ s, IsSupernetOf q p
    · obtain ⟨q0, hq0, hq0sup⟩ := h1
      have hCovP : CoversAll s p := fun a ha =>
        ⟨q0, hq0, supernet_covAddr (hs q0 hq0).1 hp hq0sup ha⟩
      have hout : collapseAux s 0 p = [p] := by
        simp only [collapseAux]
        rw [if_pos ⟨q0, hq0, hq0sup⟩]
      rw [hout]
      refine ⟨?_, ?_, ?_, ?_⟩
      · intro x hx
        rw [List.mem_singleton] at hx
        subst hx
        exact ⟨hp, hpf, supernet_refl hp⟩
      · exact ⟨fun _ => hCovP, fun _ => rfl⟩
      · intro a
        simp only [List.mem_singleton, exists_eq_left]
        exact ⟨fun hpa => ⟨hpa, hCovP a hpa⟩, fun h => h.1⟩
      · intro x
        rw [List.mem_singleton]
        constructor
        · rintro rfl
          exact ⟨supernet_refl hp, hp, hpf, hCovP, Or.inl rfl⟩
        · rintro ⟨hsx, hxWF, _, _, hdisj⟩
          exact collapse_force_eq hp hxWF hsx hdisj hCovP
    · have hout : collapseAux s 0 p = [] := by
        simp only [collapseAux]
        rw [if_neg h1]
      have hnocov : ¬ CoversAll s p := by
        intro hcov
        obtain ⟨q, hq, hsub⟩ := coversAll_member hp hsfam hcov h1
        have heq : p = q := eq_of_supernet_maxlen hp (hs q hq).1 hsub hmax
        subst heq
        exact h1 ⟨p, hq, supernet_refl hp⟩
      rw [hout]
      refine ⟨?_, ?_, ?_, ?_⟩
      · intro x hx
        exact absurd hx (List.not_mem_nil x)
      · constructor
        · intro hcon
          exact absurd hcon.symm (List.cons_ne_nil p [])
        · intro hcov
          exact absurd hcov hnocov
      · intro a
        constructor
        · rintro ⟨x, hx, _⟩
          exact absurd hx (List.not_mem_nil x)
        · rintro ⟨hpa, q, hq, hqa⟩
          obtain ⟨hqWF, hqfam⟩ := hsfam q hq
          rcases nested_or_disjoint hp hqWF hqfam.symm hpa hqa with hd | hd
          · have heq : p = q := eq_of_supernet_maxlen hp hqWF hd hmax
            subst heq
            exact (h1 ⟨p, hq, supernet_refl hp⟩).elim
          · exact (h1 ⟨q, hq, hd⟩).elim
      · intro x
        constructor
        · intro hx
          exact absurd hx (List.not_mem_nil x)
        · rintro ⟨hsx, hxWF, _, hxCov, _⟩
          have heq : p = x := eq_of_supernet_maxlen hp hxWF hsx hmax
          subst heq
          exact (hnocov hxCov).elim
  | succ fuel ih =>
    intro p hp hpf hf
    have hw : p.width = fam.width := by unfold Cidr.width; rw [hpf]
    have hlw : p.length < p.width := by omega
    have hsfam : ∀ q ∈ s, q.WF ∧ q.family = p.family := by
      intro q hq
      exact ⟨(hs q hq).1, (hs q hq).2.trans hpf.symm⟩
    have hloWF := childLo_WF hp hlw
    have hhiWF := childHi_WF hp hlw
    have hlof : (childLo p).family = fam := by rw [childLo_family, hpf]
    have hhif : (childHi p).family = fam := by rw [childHi_family, hpf]
    obtain ⟨ilo1, ilo2, ilo3, ilo4⟩ :=
      ih (childLo p) hloWF hlof (by rw [childLo_length]; omega)
    obtain ⟨ihi1, ihi2, ihi3, ihi4⟩ :=
      ih (childHi p) hhiWF hhif (by rw [childHi_length]; omega)
    have hCovChildren : CoversAll s (childLo p) → CoversAll s (childHi p) →
        CoversAll s p := by
      intro hl hr a ha
      rcases (child_cov hlw a).mp ha with h | h
      · exact hl a h
      · exact hr a h
    by_cases h1 : ∃ q ∈ s, IsSupernetOf q p
    · obtain ⟨q0, hq0, hq0sup⟩ := h1
      have hCovP : CoversAll s p := fun a ha =>
        ⟨q0, hq0, supernet_covAddr (hs q0 hq0).1 hp hq0sup ha⟩
      have hout : collapseAux s (fuel + 1) p = [p] := by
        simp only [collapseAux]
        rw [if_pos ⟨q0, hq0, hq0sup⟩]
      rw [hout]
      refine ⟨?_, ?_, ?_, ?_⟩
      · intro x hx
        rw [List.mem_singleton] at hx
        subst hx
        exact ⟨hp, hpf, supernet_refl hp⟩
      · exact ⟨fun _ => hCovP, fun _ => rfl⟩
      · intro a
        simp only [List.mem_singleton, exists_eq_left]
        exact ⟨fun hpa => ⟨hpa, hCovP a hpa⟩, fun h => h.1⟩
      · intro x
        rw [List.mem_singleton]
        constructor
        · rintro rfl
          exact ⟨supernet_refl hp, hp, hpf, hCovP, Or.inl rfl⟩
        · rintro ⟨hsx, hxWF, _, _, hdisj⟩
          exact collapse_force_eq hp hxWF hsx hdisj hCovP
    · by_cases h2 : ∃ q ∈ s, IsSupernetOf p q
      · have hout0 : collapseAux s (fuel + 1) p =
            (if collapseAux s fuel (childLo p) = [childLo p] ∧
                collapseAux s fuel (childHi p) = [childHi p] then [p]
             else collapseAux s fuel (childLo p) ++ collapseAux s fuel (childHi p)) := by
          simp only [collapseAux]
          rw [if_neg h1, if_pos h2]
        by_cases hm : collapseAux s fuel (childLo p) = [childLo p] ∧
            collapseAux s fuel (childHi p) = [childHi p]
        · -- both children fully covered: the node merges into a single block
          have hCovP : CoversAll s p :=
            hCovChildren (ilo2.mp hm.1) (ihi2.mp hm.2)
          have hout : collapseAux s (fuel + 1) p = [p] := by
            rw [hout0, if_pos hm]
          rw [hout]
          refine ⟨?_, ?_, ?_, ?_⟩
          · intro x hx
            rw [List.mem_singleton] at hx
            subst hx
            exact ⟨hp, hpf, supernet_refl hp⟩
          · exact ⟨fun _ => hCovP, fun _ => rfl⟩
          · intro a
            simp only [List.mem_singleton, exists_eq_left]
            exact ⟨fun hpa => ⟨hpa, hCovP a hpa⟩, fun h => h.1⟩
          · intro x
            rw [List.mem_singleton]
            constructor
            · rintro rfl
              exact ⟨supernet_refl hp, hp, hpf, hCovP, Or.inl rfl⟩
            · rintro ⟨hsx, hxWF, _, _, hdisj⟩
              exact collapse_force_eq hp hxWF hsx hdisj hCovP
        · -- the node stays split
          have hnCovP : ¬ CoversAll s p := by
            intro hcov
            exact hm ⟨ilo2.mpr (coversAll_mono hp hloWF (supernet_childLo hp hlw) hcov),
              ihi2.mpr (coversAll_mono hp hhiWF (supernet_childHi hp hlw) hcov)⟩
          have hout : collapseAux s (fuel + 1) p =
              collapseAux s fuel (childLo p) ++ collapseAux s fuel (childHi p) := by
            rw [hout0, if_neg hm]
          rw [hout]
          refine ⟨?_, ?_, ?_, ?_⟩
          · intro x hx
            rcases List.mem_append.mp hx with hx | hx
            · obtain ⟨hxWF, hxfam, hxsub⟩ := ilo1 x hx
              exact ⟨hxWF, hxfam,
                supernet_trans hp hloWF hxWF (supernet_childLo hp hlw) hxsub⟩
            · obtain ⟨hxWF, hxfam, hxsub⟩ := ihi1 x hx
              exact ⟨hxWF, hxfam,
                supernet_trans hp hhiWF hxWF (supernet_childHi hp hlw) hxsub⟩
          · constructor
            · intro hcon
              have hpm : p ∈ collapseAux s fuel (childLo p) ++
                  collapseAux s fuel (childHi p) := by
                rw [hcon]
                exact List.mem_singleton.mpr rfl
              rcases List.mem_append.mp hpm with hx | hx
              · have hle := (ilo1 p hx).2.2.2.1
                rw [childLo_length] at hle
                exact absurd hle (by omega)
              · have hle := (ihi1 p hx).2.2.2.1
                rw [childHi_length] at hle
                exact absurd hle (by omega)
            · intro hcov
              exact absurd hcov hnCovP
          · intro a
            constructor
            · rintro ⟨x, hx, hxa⟩
              rcases List.mem_append.mp hx with hx | hx
              · obtain ⟨hla, hqa⟩ := (ilo3 a).mp ⟨x, hx, hxa⟩
                exact ⟨(child_cov hlw a).mpr (Or.inl hla), hqa⟩
              · obtain ⟨hha, hqa⟩ := (ihi3 a).mp ⟨x, hx, hxa⟩
                exact ⟨(child_cov hlw a).mpr (Or.inr hha), hqa⟩
            · rintro ⟨hpa, hqa⟩
              rcases (child_cov hlw a).mp hpa with hc | hc
              · obtain ⟨x, hx, hxa⟩ := (ilo3 a).mpr ⟨hc, hqa⟩
                exact ⟨x, List.mem_append.mpr (Or.inl hx), hxa⟩
              · obtain ⟨x, hx, hxa⟩ := (ihi3 a).mpr ⟨hc, hqa⟩
                exact ⟨x, List.mem_append.mpr (Or.inr hx), hxa⟩
          · intro x
            rw [List.mem_append, ilo4 x, ihi4 x]
            constructor
            · rintro (⟨hsx, hxWF, hxfam, hxCov, hdisj⟩ | ⟨hsx, hxWF, hxfam, hxCov, hdisj⟩)
              · refine ⟨supernet_trans hp hloWF hxWF (supernet_childLo hp hlw) hsx,
                  hxWF, hxfam, hxCov, Or.inr ?_⟩
                rcases hdisj with rfl | hdisj
                · rw [parentOf_childLo hp hlw]
                  exact hnCovP
                · exact hdisj
              · refine ⟨supernet_trans hp hhiWF hxWF (supernet_childHi hp hlw) hsx,
                  hxWF, hxfam, hxCov, Or.inr ?_⟩
                rcases hdisj with rfl | hdisj
                · rw [parentOf_childHi hp hlw]
                  exact hnCovP
                · exact hdisj
            · rintro ⟨hsx, hxWF, hxfam, hxCov, hdisj⟩
              have hxp : x ≠ p := by
                rintro rfl
                exact hnCovP hxCov
              have hpx : p ≠ x := fun he => hxp he.symm
              have hdisj' : ¬ CoversAll s (parentOf x) := by
                rcases hdisj with h | h
                · exact absurd h hxp
                · exact h
              rcases supernet_child hp hxWF hsx hpx with ⟨hc, _⟩ | ⟨hc, _⟩
              · exact Or.inl ⟨hc, hxWF, hxfam, hxCov, Or.inr hdisj'⟩
              · exact Or.inr ⟨hc, hxWF, hxfam, hxCov, Or.inr hdisj'⟩
      · have hout : collapseAux s (fuel + 1) p = [] := by
          simp only [collapseAux]
          rw [if_neg h1, if_neg h2]
        have hnocov : ¬ CoversAll s p := by
          intro hcov
          exact h2 (coversAll_member hp hsfam hcov h1)
        rw [hout]
        refine ⟨?_, ?_, ?_, ?_⟩
        · intro x hx
          exact absurd hx (List.not_mem_nil x)
        · constructor
          · intro hcon
            exact absurd hcon.symm (List.cons_ne_nil p [])
          · intro hcov
            exact absurd hcov hnocov
        · intro a
          constructor
          · rintro ⟨x, hx, _⟩
            exact absurd hx (List.not_mem_nil x)
          · rintro ⟨hpa, q, hq, hqa⟩
            obtain ⟨hqWF, hqfam⟩ := hsfam q hq
            rcases nested_or_disjoint hp hqWF hqfam.symm hpa hqa with hd | hd
            · exact (h2 ⟨q, hq, hd⟩).elim
            · exact (h1 ⟨q, hq, hd⟩).elim
        · intro x
          constructor
          · intro hx
            exact absurd hx (List.not_mem_nil x)
          · rintro ⟨hsx, hxWF, _, hxCov, _⟩
            obtain ⟨q, hq, hqa⟩ := hxCov x.base covAddr_base
            obtain ⟨hqWF, hqfam⟩ := hsfam q hq
            have hpa : p.covAddr x.base :=
              supernet_covAddr hp hxWF hsx covAddr_base
            rcases nested_or_disjoint hp hqWF hqfam.symm hpa hqa with hd | hd
            · exact (h2 ⟨q, hq, hd⟩).elim
            · exact (h1 ⟨q, hq, hd⟩).elim

/-- A collapsed collection consists exactly of the maximal covered blocks. -/
theorem collapseFam_mem {s : Finset Cidr} {fam : Family}
    (hs : ∀ q ∈ s, q.WF ∧ q.family = fam) (m : Cidr) :
    m ∈ collapseFam s fam ↔
      m.WF ∧ m.family = fam ∧ CoversAll s m ∧
        (m.length = 0 ∨ ¬ CoversAll s (parentOf m)) := by
  obtain ⟨_, _, _, h4⟩ := collapseAux_spec hs fam.width (topCidr fam) (topCidr_WF fam)
    rfl (by simp [topCidr])
  rw [collapseFam, List.mem_toFinset, h4 m]
  constructor
  · rintro ⟨hsup, hWF, hfam, hCov, hdisj⟩
    refine ⟨hWF, hfam, hCov, ?_⟩
    rcases hdisj with rfl | hdisj
    · exact Or.inl rfl
    · exact Or.inr hdisj
  · rintro ⟨hWF, hfam, hCov, hdisj⟩
    refine ⟨supernet_top hWF hfam, hWF, hfam, hCov, ?_⟩
    rcases hdisj with hlen | hdisj
    · left
      exact (eq_top_of_length_zero hWF hlen).trans (by rw [hfam])
    · exact Or.inr hdisj

theorem collapseFam_WF {s : Finset Cidr} {fam : Family}
    (hs : ∀ q ∈ s, q.WF ∧ q.family = fam) :
    ∀ x ∈ collapseFam s fam, x.WF ∧ x.family = fam := by
  intro x hx
  rw [collapseFam_mem hs x] at hx
  exact ⟨hx.1, hx.2.1⟩

/-- Collapsing preserves the coverage. -/
theorem collapseFam_cov {s : Finset Cidr} {fam : Family}
    (hs : ∀ q ∈ s, q.WF ∧ q.family = fam) (a : Nat) :
    (∃ x ∈ collapseFam s fam, x.covAddr a) ↔ (∃ q ∈ s, q.covAddr a) := by
  obtain ⟨_, _, h3, _⟩ := collapseAux_spec hs fam.width (topCidr fam) (topCidr_WF fam)
    rfl (by simp [topCidr])
  unfold collapseFam
  constructor
  · rintro ⟨x, hx, hxa⟩
    exact ((h3 a).mp ⟨x, List.mem_toFinset.mp hx, hxa⟩).2
  · rintro ⟨q, hq, hqa⟩
    obtain ⟨hqWF, hqfam⟩ := hs q hq
    have hwq : q.width = fam.width := by unfold Cidr.width; rw [hqfam]
    have htop : (topCidr fam).covAddr a := by
      refine ⟨Nat.zero_le _, ?_⟩
      have h1 := hqWF.2.1
      have h2 := hqa.2
      show a < 0 + (topCidr fam).size
      have hts : (topCidr fam).size = 2 ^ fam.width := by
        show (2:Nat) ^ (fam.width - 0) = 2 ^ fam.width
        rw [Nat.sub_zero]
      rw [hts, ← hwq]
      omega
    obtain ⟨x, hx, hxa⟩ := (h3 a).mpr ⟨htop, q, hq, hqa⟩
    exact ⟨x, List.mem_toFinset.mpr hx, hxa⟩

/-- The collapsed blocks are pairwise disjoint. -/
theorem collapseFam_disjoint {s : Finset Cidr} {fam : Family}
    (hs : ∀ q ∈ s, q.WF ∧ q.family = fam) :
    ∀ m1 ∈ collapseFam s fam, ∀ m2 ∈ collapseFam s fam, m1 ≠ m2 →
      ∀ a : Nat, ¬ (m1.covAddr a ∧ m2.covAddr a) := by
  intro m1 h1 m2 h2 hne a hcon
  obtain ⟨ha1, ha2⟩ := hcon
  rw [collapseFam_mem hs m1] at h1
  rw [collapseFam_mem hs m2] at h2
  obtain ⟨h1WF, h1fam, h1Cov, h1disj⟩ := h1
  obtain ⟨h2WF, h2fam, h2Cov, h2disj⟩ := h2
  rcases nested_or_disjoint h1WF h2WF (h1fam.trans h2fam.symm) ha1 ha2 with hd | hd
  · have hlt := length_lt_of_strict h1WF h2WF hd hne
    rcases h2disj with hlen | hnd
    · omega
    · have hpar := supernet_parentOf h1WF h2WF hd hne
      exact hnd (coversAll_mono h1WF (parentOf_WF h2WF (by omega)) hpar h1Cov)
  · have hne2 : m2 ≠ m1 := fun he => hne he.symm
    have hlt := length_lt_of_strict h2WF h1WF hd hne2
    rcases h1disj with hlen | hnd
    · omega
    · have hpar := supernet_parentOf h2WF h1WF hd hne2
      exact hnd (coversAll_mono h2WF (parentOf_WF h1WF (by omega)) hpar h2Cov)

/-- Any member of any same-coverage disjoint family lies inside one collapsed
block. -/
theorem collapseFam_absorb {s : Finset Cidr} {fam : Family}
    (hs : ∀ q ∈ s, q.WF ∧ q.family = fam) {m q : Cidr}
    (hm : m ∈ collapseFam s fam) (hqWF : q.WF) (hqfam : q.family = fam)
    (hqCov : CoversAll s q) (hinter : ∃ a : Nat, m.covAddr a ∧ q.covAddr a) :
    IsSupernetOf m q := by
  obtain ⟨a0, hma, hqa⟩ := hinter
  rw [collapseFam_mem hs m] at hm
  obtain ⟨hmWF, hmfam, hmCov, hmdisj⟩ := hm
  rcases nested_or_disjoint hmWF hqWF (hmfam.trans hqfam.symm) hma hqa with hd | hd
  · exact hd
  · by_cases heq : q = m
    · subst heq
      exact supernet_refl hqWF
    · exfalso
      rcases hmdisj with hlen | hnd
      · have hchar := (supernet_iff_interval hqWF hmWF).mp hd
        have hq0 : q.length = 0 := by
          have := hchar.2.1
          omega
        have e1 := eq_top_of_length_zero hqWF hq0
        have e2 := eq_top_of_length_zero hmWF hlen
        exact heq (e1.trans (by rw [hqfam, ← hmfam]; exact e2.symm))
      · have hlt := length_lt_of_strict hqWF hmWF hd heq
        have hpar := supernet_parentOf hqWF hmWF hd heq
        exact hnd (coversAll_mono hqWF (parentOf_WF hmWF (by omega)) hpar hqCov)

/-- Minimality: the collapsed collection has no more blocks than any
well-formed pairwise-disjoint family with the same coverage. -/
theorem collapseFam_minimal {s : Finset Cidr} {fam : Family}
    (hs : ∀ q ∈ s, q.WF ∧ q.family = fam) (t : Finset Cidr)
    (ht : ∀ q ∈ t, q.WF ∧ q.family = fam)
    (htdis : ∀ m1 ∈ t, ∀ m2 ∈ t, m1 ≠ m2 → ∀ a : Nat, ¬ (m1.covAddr a ∧ m2.covAddr a))
    (htcov : ∀ a : Nat, (∃ q ∈ t, q.covAddr a) ↔ (∃ q ∈ s, q.covAddr a)) :
    (collapseFam s fam).card ≤ t.card := by
  classical
  have hex : ∀ m : Cidr, ∃ q : Cidr, m ∈ collapseFam s fam →
      q ∈ t ∧ q.covAddr m.base := by
    intro m
    by_cases hm : m ∈ collapseFam s fam
    · rw [collapseFam_mem hs m] at hm
      obtain ⟨q, hq, hqa⟩ := (htcov m.base).mpr (hm.2.2.1 m.base covAddr_base)
      exact ⟨q, fun _ => ⟨hq, hqa⟩⟩
    · exact ⟨m, fun h => absurd h hm⟩
  choose f hf using hex
  apply Finset.card_le_card_of_injOn f
  · intro m hm
    exact (hf m hm).1
  · intro m1 h1 m2 h2 hFeq
    rw [Finset.mem_coe] at h1 h2
    by_contra hne
    obtain ⟨hq1, hq1a⟩ := hf m1 h1
    obtain ⟨hq2, hq2a⟩ := hf m2 h2
    have hq1WF := (ht (f m1) hq1).1
    have hq1fam := (ht (f m1) hq1).2
    have hq1Cov : CoversAll s (f m1) := fun a ha => (htcov a).mp ⟨f m1, hq1, ha⟩
    have hq2Cov : CoversAll s (f m2) := fun a ha => (htcov a).mp ⟨f m2, hq2, ha⟩
    have hs1 : IsSupernetOf m1 (f m1) :=
      collapseFam_absorb hs h1 hq1WF hq1fam hq1Cov ⟨m1.base, covAddr_base, hq1a⟩
    have hs2 : IsSupernetOf m2 (f m2) :=
      collapseFam_absorb hs h2 (ht (f m2) hq2).1 (ht (f m2) hq2).2 hq2Cov
        ⟨m2.base, covAddr_base, hq2a⟩
    have hm1WF := ((collapseFam_mem hs m1).mp h1).1
    have hm2WF := ((collapseFam_mem hs m2).mp h2).1
    have ha1 : m1.covAddr (f m1).base := supernet_covAddr hm1WF hq1WF hs1 covAddr_base
    have ha2 : m2.covAddr (f m1).base := by
      rw [hFeq]
      exact supernet_covAddr hm2WF (ht (f m2) hq2).1 hs2 covAddr_base
    exact collapseFam_disjoint hs m1 h1 m2 h2 hne (f m1).base ⟨ha1, ha2⟩

theorem collapseFam_empty (fam : Family) : collapseFam ∅ fam = ∅ := by
  rw [Finset.eq_empty_iff_forall_not_mem]
  intro m hm
  rw [collapseFam_mem (by intro q hq; exact absurd hq (Finset.not_mem_empty q)) m] at hm
  obtain ⟨_, _, hCov, _⟩ := hm
  obtain ⟨q, hq, _⟩ := hCov m.base covAddr_base
  exact absurd hq (Finset.not_mem_empty q)

/-- Collapsing is idempotent. -/
theorem collapseFam_idem {s : Finset Cidr} {fam : Family}
    (hs : ∀ q ∈ s, q.WF ∧ q.family = fam) :
    collapseFam (collapseFam s fam) fam = collapseFam s fam := by
  have hs' := collapseFam_WF hs
  have hcov : ∀ x : Cidr, CoversAll (collapseFam s fam) x ↔ CoversAll s x := by
    intro x
    constructor
    · intro h a ha
      exact (collapseFam_cov hs a).mp (h a ha)
    · intro h a ha
      exact (collapseFam_cov hs a).mpr (h a ha)
  ext m
  rw [collapseFam_mem hs' m, collapseFam_mem hs m, hcov m, hcov (parentOf m)]

/-- A fully covered well-formed block lies inside a single collapsed block. -/
theorem collapseFam_covering_member {s : Finset Cidr} {fam : Family}
    (hs : ∀ q ∈ s, q.WF ∧ q.family = fam) {X : Cidr} (hX : X.WF)
    (hXfam : X.family = fam) (hXcov : CoversAll s X) :
    ∃ m ∈ collapseFam s fam, IsSupernetOf m X := by
  obtain ⟨m, hm, hma⟩ := (collapseFam_cov hs X.base).mpr (hXcov X.base covAddr_base)
  exact ⟨m, hm, collapseFam_absorb hs hm hX hXfam hXcov ⟨X.base, hma, covAddr_base⟩⟩

/-- Blocks of the same family that are not nested are disjoint. -/
theorem disjoint_of_not_nested {a b : Cidr} (ha : a.WF) (hb : b.WF)
    (hfam : a.family = b.family) (h1 : ¬ IsSupernetOf a b) (h2 : ¬ IsSupernetOf b a) :
    ∀ x : Nat, ¬ (a.covAddr x ∧ b.covAddr x) := fun x hx =>
  (nested_or_disjoint ha hb hfam hx.1 hx.2).elim h1 h2

theorem getNetworks_famSet (s : NetworkSet) (fam : Family) :
    (getNetworks s).2.famSet fam = collapseFam (s.famSet fam) fam := by
  cases fam <;> rfl

theorem getNetworks_fst (s : NetworkSet) :
    (getNetworks s).1.1 = (getNetworks s).2.famSet Family.v4 ∧
      (getNetworks s).1.2 = (getNetworks s).2.famSet Family.v6 :=
  ⟨rfl, rfl⟩

/-- The unconditional three-way-partition form of `excludeSet`. -/
theorem excludeSet_eq_partition (s : Finset Cidr) (p : Cidr) :
    excludeSet s p = s.biUnion (fun n =>
      if IsSupernetOf p n then ∅
      else if n ≠ p ∧ IsSupernetOf n p then ((addressExclude n p).getD []).toFinset
      else {n}) := by
  unfold excludeSet
  ext q
  simp only [Finset.mem_biUnion, Finset.mem_filter]
  constructor
  · rintro ⟨n, ⟨hn, hnp⟩, hq⟩
    refine ⟨n, hn, ?_⟩
    rw [if_neg hnp]
    by_cases hc : IsSupernetOf n p
    · have hne : n ≠ p := by
        rintro rfl
        exact hnp hc
      rw [if_pos ⟨hne, hc⟩]
      rwa [if_pos hc] at hq
    · rw [if_neg (fun hcon => hc hcon.2)]
      rwa [if_neg hc] at hq
  · rintro ⟨n, hn, hq⟩
    by_cases hnp : IsSupernetOf p n
    · rw [if_pos hnp] at hq
      exact absurd hq (Finset.not_mem_empty q)
    · refine ⟨n, ⟨hn, hnp⟩, ?_⟩
      rw [if_neg hnp] at hq
      by_cases hc : IsSupernetOf n p
      · by_cases hne : n = p
        · subst hne
          exact absurd hc hnp
        · rw [if_pos ⟨hne, hc⟩] at hq
          rwa [if_pos hc]
      · rw [if_neg (fun hcon => hc hcon.2)] at hq
        rwa [if_neg hc]

/-- Collapse is the identity on a collection that is already canonical:
every member is maximal (no member's parent is fully covered). -/
theorem collapseFam_of_canonical {s : Finset Cidr} {fam : Family}
    (hs : ∀ q ∈ s, q.WF ∧ q.family = fam)
    (hmax : ∀ m ∈ s, m.length = 0 ∨ ¬ CoversAll s (parentOf m)) :
    collapseFam s fam = s := by
  ext m
  rw [collapseFam_mem hs m]
  constructor
  · rintro ⟨hmWF, hmfam, hmCov, hmdisj⟩
    obtain ⟨q, hq, hqa⟩ := hmCov m.base covAddr_base
    obtain ⟨hqWF, hqfam⟩ := hs q hq
    rcases nested_or_disjoint hmWF hqWF (hmfam.trans hqfam.symm) covAddr_base hqa
      with hd | hd
    · by_cases heq : m = q
      · subst heq
        exact hq
      · exfalso
        have hlt := length_lt_of_strict hmWF hqWF hd heq
        rcases hmax q hq with hlen | hnd
        · omega
        · exact hnd (coversAll_mono hmWF (parentOf_WF hqWF (by omega))
            (supernet_parentOf hmWF hqWF hd heq) hmCov)
    · by_cases heq : q = m
      · subst heq
        exact hq
      · exfalso
        have hlt := length_lt_of_strict hqWF hmWF hd heq
        have hqCov : CoversAll s q := fun a ha => ⟨q, hq, ha⟩
        rcases hmdisj with hlen | hnd
        · omega
        · exact hnd (coversAll_mono hqWF (parentOf_WF hmWF (by omega))
            (supernet_parentOf hqWF hmWF hd heq) hqCov)
  · intro hm
    obtain ⟨hmWF, hmfam⟩ := hs m hm
    exact ⟨hmWF, hmfam, fun a ha => ⟨m, hm, ha⟩, hmax m hm⟩

theorem not_coversAll_of_witness (a : Nat) {s : Finset Cidr} {p : Cidr}
    (h1 : p.covAddr a) (h2 : ¬ ∃ q ∈ s, q.covAddr a) : ¬ CoversAll s p :=
  fun hcov => h2 (hcov a h1)

theorem scenarioState_v4 : scenarioState.v4Networks = scenarioExpected := by decide

theorem scenario_result_eq : scenarioResult = scenarioExpected := by
  have h1 : scenarioResult = collapseFam scenarioState.v4Networks Family.v4 := rfl
  rw [h1, scenarioState_v4]
  apply collapseFam_of_canonical
  · decide
  · intro m hm
    simp only [scenarioExpected, Finset.mem_insert, Finset.mem_singleton] at hm
    rcases hm with rfl | rfl | rfl | rfl | rfl | rfl | rfl | rfl | rfl
    · exact Or.inr (not_coversAll_of_witness (10 * 2^24 + 2^16 + 3 * 2^8)
        (by decide) (by decide))
    · exact Or.inr (not_coversAll_of_witness (10 * 2^24) (by decide) (by decide))
    · exact Or.inr (not_coversAll_of_witness (10 * 2^24) (by decide) (by decide))
    · exact Or.inr (not_coversAll_of_witness (10 * 2^24) (by decide) (by decide))
    · exact Or.inr (not_coversAll_of_witness (10 * 2^24) (by decide) (by decide))
    · exact Or.inr (not_coversAll_of_witness (10 * 2^24) (by decide) (by decide))
    · exact Or.inr (not_coversAll_of_witness (10 * 2^24) (by decide) (by decide))
    · exact Or.inr (not_coversAll_of_witness (10 * 2^24) (by decide) (by decide))
    · exact Or.inr (not_coversAll_of_witness (10 * 2^24) (by decide) (by decide))

theorem NetworkSet.famSet_ext {s t : NetworkSet}
    (h : ∀ fam, s.famSet fam = t.famSet fam) : s = t := by
  obtain ⟨a, b⟩ := s
  obtain ⟨c, d⟩ := t
  have h4 := h Family.v4
  have h6 := h Family.v6
  simp only [NetworkSet.famSet] at h4 h6
  rw [h4, h6]


/-! ### Claim theorems -/

/-- C1: for every NetworkSet and prefix `p`, `excludeNetwork p` rebuilds the
collection of `p`'s family by partitioning its members `n` into exactly three
cases — `p` a supernet of `n` (including `p = n`): `n` dropped; `n` a strict
supernet of `p`: `n` replaced by the subnet-complement split of `n` minus
`p`; otherwise `n` kept — and the new collection is exactly the union of
these results; the other family's collection is untouched. -/
theorem claim_C1_exclude_partition (s : NetworkSet) (p : Cidr) :
    (excludeNetwork s p).famSet p.family =
      (s.famSet p.family).biUnion (fun n =>
        if IsSupernetOf p n then ∅
        else if n ≠ p ∧ IsSupernetOf n p then
          ((addressExclude n p).getD []).toFinset
        else {n}) ∧
    ∀ fam : Family, fam ≠ p.family →
      (excludeNetwork s p).famSet fam = s.famSet fam := by
  constructor
  · rw [famSet_excludeNetwork, if_pos rfl, excludeSet_eq_partition]
  · intro fam hfam
    rw [famSet_excludeNetwork, if_neg (fun h => hfam h.symm)]

/-- C3: for same-family well-formed blocks with A a strict supernet of B,
the subnet-complement split of A minus B succeeds and yields exactly
B.length - A.length blocks, the i-th of length A.length+1+i (one of each
length from A.length+1 up to B.length), pairwise disjoint and disjoint from
B, whose union together with B exactly reconstructs A's coverage, with B
itself not among the emitted blocks. -/
theorem claim_C3_split_spec (A B : Cidr) (hA : A.WF) (hB : B.WF)
    (hsup : IsSupernetOf A B) (hlen : A.length < B.length) :
    ∃ l, addressExclude A B = some l ∧
      l.length = B.length - A.length ∧
      (∀ i, ∀ hi : i < l.length, (l.get ⟨i, hi⟩).length = A.length + 1 + i) ∧
      List.Pairwise CidrDisjoint l ∧
      (∀ x ∈ l, ∀ c : Nat, x.covAddr c → ¬ B.covAddr c) ∧
      (∀ c : Nat, A.covAddr c ↔ (B.covAddr c ∨ ∃ x ∈ l, x.covAddr c)) ∧
      B ∉ l := by
  have hne : A ≠ B := by
    intro h
    rw [h] at hlen
    omega
  obtain ⟨l, h1, h2, h3, _, h5, h6, h7, h8⟩ := addressExclude_spec hA hB hsup hne
  exact ⟨l, h1, h2, h3, h6, h5, h7, h8⟩

theorem claim_C3_witness :
    ((cidr4 0 0 0 0 0).WF ∧ (cidr4 10 0 0 0 8).WF ∧
      IsSupernetOf (cidr4 0 0 0 0 0) (cidr4 10 0 0 0 8) ∧
      (cidr4 0 0 0 0 0).length < (cidr4 10 0 0 0 8).length) ∧
    (∃ l, addressExclude (cidr4 0 0 0 0 0) (cidr4 10 0 0 0 8) = some l ∧
      l.length = (cidr4 10 0 0 0 8).length - (cidr4 0 0 0 0 0).length ∧
      (∀ i, ∀ hi : i < l.length,
        (l.get ⟨i, hi⟩).length = (cidr4 0 0 0 0 0).length + 1 + i) ∧
      List.Pairwise CidrDisjoint l ∧
      (∀ x ∈ l, ∀ c : Nat, x.covAddr c → ¬ (cidr4 10 0 0 0 8).covAddr c) ∧
      (∀ c : Nat, (cidr4 0 0 0 0 0).covAddr c ↔
        ((cidr4 10 0 0 0 8).covAddr c ∨ ∃ x ∈ l, x.covAddr c)) ∧
      cidr4 10 0 0 0 8 ∉ l) :=
  ⟨⟨by decide, by decide, by decide, by decide⟩,
    claim_C3_split_spec (cidr4 0 0 0 0 0) (cidr4 10 0 0 0 8)
      (by decide) (by decide) (by decide) (by decide)⟩

/-- C4: for any sequence of excludeNetwork calls with no intervening
includes, the resulting coverage equals the initial coverage minus the union
of all excluded ranges, and the result is the same for every permutation of
the exclude sequence. -/
theorem claim_C4_exclude_order_independent (s : NetworkSet) (hs : s.WF)
    (ps : List Cidr) (hps : ∀ p ∈ ps, p.WF) :
    (∀ (fam : Family) (a : Nat),
      (ps.foldl excludeNetwork s).Covers fam a ↔
        (s.Covers fam a ∧ ¬ ∃ p ∈ ps, p.family = fam ∧ p.covAddr a)) ∧
    (∀ qs : List Cidr, qs.Perm ps → ∀ (fam : Family) (a : Nat),
      (qs.foldl excludeNetwork s).Covers fam a ↔
        (ps.foldl excludeNetwork s).Covers fam a) := by
  refine ⟨fun fam a => foldl_exclude_covers hps hs fam a, ?_⟩
  intro qs hperm fam a
  have hqs : ∀ p ∈ qs, p.WF := fun p hp => hps p (hperm.mem_iff.mp hp)
  rw [foldl_exclude_covers hqs hs fam a, foldl_exclude_covers hps hs fam a]
  constructor
  · rintro ⟨hcov, hnex⟩
    exact ⟨hcov, fun ⟨p, hp, h⟩ => hnex ⟨p, hperm.mem_iff.mpr hp, h⟩⟩
  · rintro ⟨hcov, hnex⟩
    exact ⟨hcov, fun ⟨p, hp, h⟩ => hnex ⟨p, hperm.mem_iff.mp hp, h⟩⟩

theorem claim_C4_witness :
    (sibDemo.WF ∧ ∀ p ∈ [cidr4 10 0 0 0 8], p.WF) ∧
    ((∀ (fam : Family) (a : Nat),
      (([cidr4 10 0 0 0 8]).foldl excludeNetwork sibDemo).Covers fam a ↔
        (sibDemo.Covers fam a ∧
          ¬ ∃ p ∈ [cidr4 10 0 0 0 8], p.family = fam ∧ p.covAddr a)) ∧
    (∀ qs : List Cidr, qs.Perm [cidr4 10 0 0 0 8] → ∀ (fam : Family) (a : Nat),
      (qs.foldl excludeNetwork sibDemo).Covers fam a ↔
        (([cidr4 10 0 0 0 8]).foldl excludeNetwork sibDemo).Covers fam a)) :=
  ⟨⟨by decide, by decide⟩,
    claim_C4_exclude_order_independent sibDemo (by decide)
      [cidr4 10 0 0 0 8] (by decide)⟩

/-- C7: includeNetwork p immediately followed by excludeNetwork p yields,
after getNetworks, a result covering no address of p's range. -/
theorem claim_C7_include_then_exclude (s : NetworkSet) (hs : s.WF)
    (p : Cidr) (hp : p.WF) :
    ∀ a : Nat, p.covAddr a →
      ¬ ∃ q ∈ (getNetworks (excludeNetwork (includeNetwork s p) p)).2.famSet p.family,
        q.covAddr a := by
  intro a ha hcon
  have hinc := includeNetwork_WF hp hs
  have hexc := excludeNetwork_WF hp hinc
  rw [getNetworks_famSet] at hcon
  have hcov : (excludeNetwork (includeNetwork s p) p).Covers p.family a :=
    (collapseFam_cov (fun q hq => hexc p.family q hq) a).mp hcon
  have := (covers_excludeNetwork hp hinc p.family a).mp hcov
  exact this.2 ⟨rfl, ha⟩

theorem claim_C7_witness :
    (emptyNetworkSet.WF ∧ (cidr4 10 0 0 0 8).WF) ∧
    (∀ a : Nat, (cidr4 10 0 0 0 8).covAddr a →
      ¬ ∃ q ∈ (getNetworks (excludeNetwork
          (includeNetwork emptyNetworkSet (cidr4 10 0 0 0 8))
          (cidr4 10 0 0 0 8))).2.famSet (cidr4 10 0 0 0 8).family,
        q.covAddr a) :=
  ⟨⟨by decide, by decide⟩,
    claim_C7_include_then_exclude emptyNetworkSet (by decide)
      (cidr4 10 0 0 0 8) (by decide)⟩

/-- C8: getNetworks is idempotent — calling it twice with no mutation in
between returns the same result and the same (canonical) internal state. -/
theorem claim_C8_getNetworks_idempotent (s : NetworkSet) (hs : s.WF) :
    getNetworks (getNetworks s).2 = getNetworks s := by
  have h4 : collapseFam (collapseFam s.v4Networks Family.v4) Family.v4 =
      collapseFam s.v4Networks Family.v4 :=
    collapseFam_idem (fun q hq => hs Family.v4 q hq)
  have h6 : collapseFam (collapseFam s.v6Networks Family.v6) Family.v6 =
      collapseFam s.v6Networks Family.v6 :=
    collapseFam_idem (fun q hq => hs Family.v6 q hq)
  show ((collapseFam (collapseFam s.v4Networks Family.v4) Family.v4,
         collapseFam (collapseFam s.v6Networks Family.v6) Family.v6),
        ({ v4Networks := collapseFam (collapseFam s.v4Networks Family.v4) Family.v4,
           v6Networks := collapseFam (collapseFam s.v6Networks Family.v6) Family.v6 }
          : NetworkSet)) =
       ((collapseFam s.v4Networks Family.v4, collapseFam s.v6Networks Family.v6),
        { v4Networks := collapseFam s.v4Networks Family.v4,
          v6Networks := collapseFam s.v6Networks Family.v6 })
  rw [h4, h6]

theorem claim_C8_witness :
    sibDemo.WF ∧ getNetworks (getNetworks sibDemo).2 = getNetworks sibDemo :=
  ⟨by decide, claim_C8_getNetworks_idempotent sibDemo (by decide)⟩

/-- C9: the operations are total on well-formed inputs: the checked
exclusion never reaches the split's error branch (the split is invoked only
on strict supernets of the excluded block), and excluding a block disjoint
from every member is a no-op. -/
theorem claim_C9_total_no_error (s : NetworkSet) (hs : s.WF) (p : Cidr) (hp : p.WF) :
    excludeSetChecked (s.famSet p.family) p =
      some (excludeSet (s.famSet p.family) p) ∧
    (∀ n ∈ s.famSet p.family, ¬ IsSupernetOf p n → IsSupernetOf n p →
      n ≠ p ∧ (addressExclude n p).isSome = true) ∧
    ((∀ n ∈ s.famSet p.family, ¬ IsSupernetOf p n ∧ ¬ IsSupernetOf n p) →
      excludeNetwork s p = s) := by
  have hsf : ∀ n ∈ s.famSet p.family, n.WF ∧ n.family = p.family :=
    fun n hn => hs p.family n hn
  refine ⟨excludeSetChecked_ok hp hsf, ?_, ?_⟩
  · intro n hn hnp hc
    have hne : n ≠ p := by
      rintro rfl
      exact hnp (supernet_refl (hsf n hn).1)
    obtain ⟨l, hl, _⟩ := addressExclude_spec (hsf n hn).1 hp hc hne
    refine ⟨hne, ?_⟩
    rw [hl]
    rfl
  · intro hdisj
    apply NetworkSet.famSet_ext
    intro fam
    rw [famSet_excludeNetwork]
    by_cases h : p.family = fam
    · rw [if_pos h]
      subst h
      exact excludeSet_disjoint_noop hdisj
    · rw [if_neg h]

theorem claim_C9_witness :
    (halfState.WF ∧ (cidr4 128 0 0 0 1).WF) ∧
    (excludeSetChecked (halfState.famSet (cidr4 128 0 0 0 1).family)
        (cidr4 128 0 0 0 1) =
      some (excludeSet (halfState.famSet (cidr4 128 0 0 0 1).family)
        (cidr4 128 0 0 0 1)) ∧
    (∀ n ∈ halfState.famSet (cidr4 128 0 0 0 1).family,
      ¬ IsSupernetOf (cidr4 128 0 0 0 1) n → IsSupernetOf n (cidr4 128 0 0 0 1) →
      n ≠ cidr4 128 0 0 0 1 ∧
        (addressExclude n (cidr4 128 0 0 0 1)).isSome = true) ∧
    ((∀ n ∈ halfState.famSet (cidr4 128 0 0 0 1).family,
        ¬ IsSupernetOf (cidr4 128 0 0 0 1) n ∧
          ¬ IsSupernetOf n (cidr4 128 0 0 0 1)) →
      excludeNetwork halfState (cidr4 128 0 0 0 1) = halfState)) :=
  ⟨⟨by decide, by decide⟩,
    claim_C9_total_no_error halfState (by decide) (cidr4 128 0 0 0 1) (by decide)⟩

/-- C10: the NetworkSet is deterministic — two runs of the same mutation
sequence from the fresh empty state produce identical getNetworks results,
so the per-family result sets are a function of the call sequence alone. -/
theorem claim_C10_deterministic (ops : List (Bool × Cidr)) (s t : NetworkSet)
    (h1 : s = runSeq ops) (h2 : t = runSeq ops) :
    getNetworks s = getNetworks t := by
  rw [h1, h2]

theorem claim_C10_witness :
    (emptyNetworkSet = runSeq [] ∧ emptyNetworkSet = runSeq []) ∧
    getNetworks emptyNetworkSet = getNetworks emptyNetworkSet :=
  ⟨⟨rfl, rfl⟩, claim_C10_deterministic [] emptyNetworkSet emptyNetworkSet rfl rfl⟩

/-- C2: getNetworks returns, per family, the minimal-cardinality set of
pairwise-disjoint blocks whose coverage equals the coverage of the stored
collection, replaces the internal state with these canonical collections,
and maps an empty input collection to an empty output. -/
theorem claim_C2_minimal_canonical (s : NetworkSet) (hs : s.WF) (fam : Family) :
    ((getNetworks s).1.1 = (getNetworks s).2.famSet Family.v4 ∧
     (getNetworks s).1.2 = (getNetworks s).2.famSet Family.v6) ∧
    (∀ m1 ∈ (getNetworks s).2.famSet fam, ∀ m2 ∈ (getNetworks s).2.famSet fam,
      m1 ≠ m2 → ∀ a : Nat, ¬ (m1.covAddr a ∧ m2.covAddr a)) ∧
    (∀ a : Nat, (∃ q ∈ (getNetworks s).2.famSet fam, q.covAddr a) ↔
      (∃ q ∈ s.famSet fam, q.covAddr a)) ∧
    (∀ t : Finset Cidr, (∀ q ∈ t, q.WF ∧ q.family = fam) →
      (∀ m1 ∈ t, ∀ m2 ∈ t, m1 ≠ m2 → ∀ a : Nat, ¬ (m1.covAddr a ∧ m2.covAddr a)) →
      (∀ a : Nat, (∃ q ∈ t, q.covAddr a) ↔ (∃ q ∈ s.famSet fam, q.covAddr a)) →
      ((getNetworks s).2.famSet fam).card ≤ t.card) ∧
    (s.famSet fam = ∅ → (getNetworks s).2.famSet fam = ∅) := by
  have hsf : ∀ q ∈ s.famSet fam, q.WF ∧ q.family = fam := fun q hq => hs fam q hq
  refine ⟨getNetworks_fst s, ?_, ?_, ?_, ?_⟩
  · rw [getNetworks_famSet]
    exact collapseFam_disjoint hsf
  · rw [getNetworks_famSet]
    exact collapseFam_cov hsf
  · intro t ht htdis htcov
    rw [getNetworks_famSet]
    exact collapseFam_minimal hsf t ht htdis htcov
  · intro hempty
    rw [getNetworks_famSet, hempty]
    exact collapseFam_empty fam

theorem claim_C2_witness :
    sibDemo.WF ∧
    (((getNetworks sibDemo).1.1 = (getNetworks sibDemo).2.famSet Family.v4 ∧
      (getNetworks sibDemo).1.2 = (getNetworks sibDemo).2.famSet Family.v6) ∧
    (∀ m1 ∈ (getNetworks sibDemo).2.famSet Family.v4,
      ∀ m2 ∈ (getNetworks sibDemo).2.famSet Family.v4,
      m1 ≠ m2 → ∀ a : Nat, ¬ (m1.covAddr a ∧ m2.covAddr a)) ∧
    (∀ a : Nat, (∃ q ∈ (getNetworks sibDemo).2.famSet Family.v4, q.covAddr a) ↔
      (∃ q ∈ sibDemo.famSet Family.v4, q.covAddr a)) ∧
    (∀ t : Finset Cidr, (∀ q ∈ t, q.WF ∧ q.family = Family.v4) →
      (∀ m1 ∈ t, ∀ m2 ∈ t, m1 ≠ m2 → ∀ a : Nat, ¬ (m1.covAddr a ∧ m2.covAddr a)) →
      (∀ a : Nat, (∃ q ∈ t, q.covAddr a) ↔
        (∃ q ∈ sibDemo.famSet Family.v4, q.covAddr a)) →
      ((getNetworks sibDemo).2.famSet Family.v4).card ≤ t.card) ∧
    (sibDemo.famSet Family.v4 = ∅ → (getNetworks sibDemo).2.famSet Family.v4 = ∅)) :=
  ⟨by decide, claim_C2_minimal_canonical sibDemo (by decide) Family.v4⟩

/-- C5 (counterexample to the claim as stated): the scenario's minimal cover
of 0.0.0.0/0 minus 10.0.0.0/8 contains the block 128.0.0.0/1, distinct from
the override 10.1.2.0/24 and of length 1, outside the claimed range of
lengths 5 through 8. -/
theorem claim_C5_counterexample :
    cidr4 128 0 0 0 1 ∈ scenarioResult ∧
    cidr4 128 0 0 0 1 ≠ cidr4 10 1 2 0 24 ∧
    (cidr4 128 0 0 0 1).length < 5 := by
  refine ⟨?_, by decide, by decide⟩
  rw [scenario_result_eq]
  decide

/-- C5 (amended): the scenario — include 0.0.0.0/0, exclude 10.0.0.0/8,
override-include 10.1.2.0/24, then getNetworks — returns exactly
10.1.2.0/24 plus the minimal CIDR cover of 0.0.0.0/0 minus 10.0.0.0/8, that
cover being the fixed enumerable set of one block per length 1 through 8
complementary to 10.0.0.0/8, with no overlap between any two output blocks
and no output block other than 10.1.2.0/24 covering any address of
10.0.0.0/8. -/
theorem claim_C5_scenario :
    scenarioResult = scenarioExpected ∧
    (∀ m1 ∈ scenarioResult, ∀ m2 ∈ scenarioResult, m1 ≠ m2 →
      ∀ a : Nat, ¬ (m1.covAddr a ∧ m2.covAddr a)) ∧
    (∀ m ∈ scenarioResult, m ≠ cidr4 10 1 2 0 24 →
      ∀ a : Nat, ¬ (m.covAddr a ∧ (cidr4 10 0 0 0 8).covAddr a)) ∧
    (∀ m ∈ scenarioResult, m = cidr4 10 1 2 0 24 ∨
      (1 ≤ m.length ∧ m.length ≤ 8)) := by
  have hsWF : ∀ q ∈ scenarioState.v4Networks, q.WF ∧ q.family = Family.v4 := by
    rw [scenarioState_v4]
    decide
  have hres : scenarioResult = collapseFam scenarioState.v4Networks Family.v4 := rfl
  refine ⟨scenario_result_eq, ?_, ?_, ?_⟩
  · rw [hres]
    exact collapseFam_disjoint hsWF
  · intro m hm hne a
    rw [scenario_result_eq] at hm
    simp only [scenarioExpected, Finset.mem_insert, Finset.mem_singleton] at hm
    rcases hm with rfl | rfl | rfl | rfl | rfl | rfl | rfl | rfl | rfl
    · exact absurd rfl hne
    · refine disjoint_of_not_nested ?_ ?_ ?_ ?_ ?_ a <;> decide
    · refine disjoint_of_not_nested ?_ ?_ ?_ ?_ ?_ a <;> decide
    · refine disjoint_of_not_nested ?_ ?_ ?_ ?_ ?_ a <;> decide
    · refine disjoint_of_not_nested ?_ ?_ ?_ ?_ ?_ a <;> decide
    · refine disjoint_of_not_nested ?_ ?_ ?_ ?_ ?_ a <;> decide
    · refine disjoint_of_not_nested ?_ ?_ ?_ ?_ ?_ a <;> decide
    · refine disjoint_of_not_nested ?_ ?_ ?_ ?_ ?_ a <;> decide
    · refine disjoint_of_not_nested ?_ ?_ ?_ ?_ ?_ a <;> decide
  · intro m hm
    rw [scenario_result_eq] at hm
    simp only [scenarioExpected, Finset.mem_insert, Finset.mem_singleton] at hm
    rcases hm with rfl | rfl | rfl | rfl | rfl | rfl | rfl | rfl | rfl <;> decide

/-- C6 (counterexample to the claim as stated): starting from the state
holding 0.0.0.0/1 and round-tripping X = 128.0.0.0/1, the canonical result
is the single block 0.0.0.0/0 — X's coverage is restored, but X itself is
not among the returned blocks. -/
theorem claim_C6_counterexample :
    (getNetworks (includeNetwork (excludeNetwork halfState (cidr4 128 0 0 0 1))
        (cidr4 128 0 0 0 1))).1.1 = {cidr4 0 0 0 0 0} ∧
    cidr4 128 0 0 0 1 ∉
      (getNetworks (includeNetwork (excludeNetwork halfState (cidr4 128 0 0 0 1))
        (cidr4 128 0 0 0 1))).1.1 := by
  decide

/-- C6 (amended): for every well-formed NetworkSet and block X, excluding X
then override-including X yields, after getNetworks, coverage containing all
of X's range, carried by one single output block (a supernet of X) — no
other output block covers any address of X, so X is never fragmented. -/
theorem claim_C6_roundtrip (s : NetworkSet) (hs : s.WF) (X : Cidr) (hX : X.WF) :
    (∀ a : Nat, X.covAddr a →
      ∃ q ∈ (getNetworks (includeNetwork (excludeNetwork s X) X)).2.famSet X.family,
        q.covAddr a) ∧
    ∃ m ∈ (getNetworks (includeNetwork (excludeNetwork s X) X)).2.famSet X.family,
      IsSupernetOf m X ∧
      ∀ m' ∈ (getNetworks (includeNetwork (excludeNetwork s X) X)).2.famSet X.family,
        m' ≠ m → ∀ a : Nat, X.covAddr a → ¬ m'.covAddr a := by
  have hexc := excludeNetwork_WF hX hs
  have hinc := includeNetwork_WF hX hexc
  have hsf : ∀ q ∈ (includeNetwork (excludeNetwork s X) X).famSet X.family,
      q.WF ∧ q.family = X.family := fun q hq => hinc X.family q hq
  have hXcov : CoversAll ((includeNetwork (excludeNetwork s X) X).famSet X.family) X := by
    intro a ha
    exact (covers_includeNetwork (excludeNetwork s X) X X.family a).mpr (Or.inr ⟨rfl, ha⟩)
  rw [getNetworks_famSet]
  constructor
  · intro a ha
    exact (collapseFam_cov hsf a).mpr (hXcov a ha)
  · obtain ⟨m, hm, hmsup⟩ := collapseFam_covering_member hsf hX rfl hXcov
    refine ⟨m, hm, hmsup, ?_⟩
    intro m' hm' hne a ha hcon
    have hmWF := (collapseFam_WF hsf m hm).1
    have hma : m.covAddr a := supernet_covAddr hmWF hX hmsup ha
    exact collapseFam_disjoint hsf m' hm' m hm hne a ⟨hcon, hma⟩

theorem claim_C6_witness :
    (halfState.WF ∧ (cidr4 128 0 0 0 1).WF) ∧
    ((∀ a : Nat, (cidr4 128 0 0 0 1).covAddr a →
      ∃ q ∈ (getNetworks (includeNetwork (excludeNetwork halfState
          (cidr4 128 0 0 0 1)) (cidr4 128 0 0 0 1))).2.famSet
          (cidr4 128 0 0 0 1).family,
        q.covAddr a) ∧
    ∃ m ∈ (getNetworks (includeNetwork (excludeNetwork halfState
        (cidr4 128 0 0 0 1)) (cidr4 128 0 0 0 1))).2.famSet
        (cidr4 128 0 0 0 1).family,
      IsSupernetOf m (cidr4 128 0 0 0 1) ∧
      ∀ m' ∈ (getNetworks (includeNetwork (excludeNetwork halfState
          (cidr4 128 0 0 0 1)) (cidr4 128 0 0 0 1))).2.famSet
          (cidr4 128 0 0 0 1).family,
        m' ≠ m → ∀ a : Nat, (cidr4 128 0 0 0 1).covAddr a → ¬ m'.covAddr a) :=
  ⟨⟨by decide, by decide⟩,
    claim_C6_roundtrip halfState (by decide) (cidr4 128 0 0 0 1) (by decide)⟩
